import Mathlib

/-!
Verification of a 9x9 Sudoku solver (backtracking search with MRV/degree
variable selection, forward checking, and a wall-clock time limit).

The solver is embedded shallowly:

* the 9x9 grid (`self.puzzle`, a list of lists of ints in [0,9]) becomes
  `Grid := Fin 9 → Fin 9 → Nat`;
* the per-cell domain dictionary (`self.domains`, a dict from all 81
  coordinate pairs to lists of candidate digits) becomes
  `Doms := Fin 9 × Fin 9 → List Nat`;
* `time.time() - start_time` is modelled by an abstract clock stream
  `clock : Nat → Nat` giving the elapsed time observed by the k-th deadline
  check executed during a `solve` call (checks happen once per `backtrack`
  entry, in execution order); the time limit is a `Nat`;
* the recursion is given explicit fuel (the Python recursion always
  terminates because each recursive call fills one more cell, so every
  actual execution is reproduced by any sufficiently large fuel; all
  theorems quantify over the fuel);
* the mutable state is threaded explicitly; in addition the embedding
  records observational instrumentation that does not influence control
  flow: a trace of intermediate states (at each `backtrack` entry, after
  each commit of a value, and after each undo), counters of commits and of
  variable selections that happen after some deadline check has reported
  the limit exceeded, and, next to the `assignments` log kept by the
  Python code, a ghost copy of each log entry paired with the state at the
  moment the logged cell was selected.
-/

set_option maxRecDepth 20000

/-- A 9x9 grid of digits; 0 means unassigned. Mirrors `self.puzzle`. -/
def Grid : Type := Fin 9 → Fin 9 → Nat

/-- Per-cell candidate domains. Mirrors the dict `self.domains`, which has
all 81 keys at all times. -/
def Doms : Type := Fin 9 × Fin 9 → List Nat

/-- Functional update of one grid cell (`self.puzzle[row][col] = v`). -/
def setCell (g : Grid) (row col : Fin 9) (v : Nat) : Grid :=
  fun r c => if r = row ∧ c = col then v else g r c

/-- Functional update of one cell's domain list. -/
def setDom (d : Doms) (p : Fin 9 × Fin 9) (l : List Nat) : Doms :=
  fun q => if q = p then l else d q

/-- The solver state: grid plus domain map (`self.puzzle`, `self.domains`). -/
structure SState where
  puzzle : Grid
  domains : Doms

/-- `SudokuSolver.__init__`: empty cells get domain `[1..9]`, filled cells
get the singleton of their value. -/
def initState (g : Grid) : SState where
  puzzle := g
  domains := fun p =>
    if g p.1 p.2 = 0 then [1, 2, 3, 4, 5, 6, 7, 8, 9] else [g p.1 p.2]

/-- The row index of the i-th row of the 3x3 box containing row `r`
(`box_row = 3 * (row // 3)` and offsets 0,1,2). -/
def boxIdx (r : Fin 9) (i : Fin 3) : Fin 9 :=
  ⟨3 * (r.val / 3) + i.val, by have h1 := r.isLt; have h2 := i.isLt; omega⟩

/-- `SudokuSolver.is_valid`: value `v` at `(row, col)` conflicts with no
currently assigned cell in the same row, column, or 3x3 box. The Python
scans include the cell `(row, col)` itself. -/
def is_valid (g : Grid) (row col : Fin 9) (v : Nat) : Bool :=
  decide ((∀ c : Fin 9, g row c ≠ v) ∧ (∀ r : Fin 9, g r col ≠ v) ∧
    (∀ i : Fin 3, ∀ j : Fin 3, g (boxIdx row i) (boxIdx col j) ≠ v))

/-- All 81 cells in the row-major order of the Python double loop. -/
def allCells : List (Fin 9 × Fin 9) :=
  (List.finRange 9).flatMap (fun r => (List.finRange 9).map (fun c => (r, c)))

/-- One step of the MRV scan in `select_unassigned_variable`: the
accumulator holds the best (smallest) domain size seen so far (`none`
plays the role of `float('inf')`) and the list of unassigned cells
achieving it, in scan order. -/
def mrvStep (st : SState) (acc : Option Nat × List (Fin 9 × Fin 9))
    (p : Fin 9 × Fin 9) : Option Nat × List (Fin 9 × Fin 9) :=
  if st.puzzle p.1 p.2 = 0 then
    let ds := (st.domains p).length
    match acc.1 with
    | none => (some ds, [p])
    | some m =>
      if ds < m then (some ds, [p])
      else if ds = m then (some m, acc.2 ++ [p])
      else acc
  else acc

/-- Number of unassigned cells in column `col`. -/
def colCount (g : Grid) (col : Fin 9) : Nat :=
  (Finset.univ.filter (fun r : Fin 9 => g r col = 0)).card

/-- Number of unassigned cells in row `row`. -/
def rowCount (g : Grid) (row : Fin 9) : Nat :=
  (Finset.univ.filter (fun c : Fin 9 => g row c = 0)).card

/-- The degree value computed by the Python code (both in the selector and
in the assignment log): unassigned cells in the column plus unassigned
cells in the row minus 2, as a (possibly negative) integer. -/
def degreeOf (g : Grid) (row col : Fin 9) : Int :=
  (colCount g col : Int) + (rowCount g row : Int) - 2

/-- One step of the degree tie-break loop: keep the first candidate with
strictly largest degree (`max_degree` starts at -1, `selected_var` at
`None`). -/
def degStep (g : Grid) (acc : Int × Option (Fin 9 × Fin 9))
    (p : Fin 9 × Fin 9) : Int × Option (Fin 9 × Fin 9) :=
  if degreeOf g p.1 p.2 > acc.1 then (degreeOf g p.1 p.2, some p) else acc

/-- `SudokuSolver.select_unassigned_variable`: MRV scan over all cells in
row-major order, then the degree tie-break. The Python
`selected_var if selected_var else candidate_vars[0]` returns
`selected_var` whenever it is not `None` (a coordinate tuple is always
truthy); `candidate_vars[0]` on an empty candidate list would raise, which
is modelled by the irrelevant default `(0,0)` (the solver only calls the
selector when an unassigned cell exists). -/
def select_unassigned_variable (st : SState) : Fin 9 × Fin 9 :=
  let cands := (allCells.foldl (mrvStep st) (none, [])).2
  match (cands.foldl (degStep st.puzzle) (-1, none)).2 with
  | some p => p
  | none => cands.headD (0, 0)

/-- The cells of the 3x3 box of `(row, col)` in the scan order of
`forward_checking`'s box loop. -/
def boxCells (row col : Fin 9) : List (Fin 9 × Fin 9) :=
  (List.finRange 3).flatMap
    (fun i => (List.finRange 3).map (fun j => (boxIdx row i, boxIdx col j)))

/-- The cells visited by `forward_checking` for a placement at
`(row, col)`: the column sweep (skipping row `row`), then the row sweep
(skipping column `col`), then the box sweep (skipping `(row, col)`).
Cells in the box that also share the row or the column occur twice. -/
def fcCells (row col : Fin 9) : List (Fin 9 × Fin 9) :=
  ((List.finRange 9).filter (fun r => decide (r ≠ row))).map (fun r => (r, col)) ++
    ((List.finRange 9).filter (fun c => decide (c ≠ col))).map (fun c => (row, c)) ++
    (boxCells row col).filter (fun p => decide (p ≠ (row, col)))

/-- The loop body shared by the three sweeps of `forward_checking`: for
each visited cell, if `v` is in its domain, remove the first occurrence
(`list.remove`) and append the removal to the log. -/
def fcLoop (v : Nat) : List (Fin 9 × Fin 9) → Doms →
    List ((Fin 9 × Fin 9) × Nat) → Doms × List ((Fin 9 × Fin 9) × Nat)
  | [], d, rem => (d, rem)
  | p :: rest, d, rem =>
    if v ∈ d p then
      fcLoop v rest (setDom d p ((d p).erase v)) (rem ++ [(p, v)])
    else
      fcLoop v rest d rem

/-- `SudokuSolver.forward_checking`: prune `v` from the domains of the
cells sharing the column, row, or 3x3 box, and return the removal log
together with the updated domains. -/
def forward_checking (d : Doms) (row col : Fin 9) (v : Nat) :
    List ((Fin 9 × Fin 9) × Nat) × Doms :=
  let r := fcLoop v (fcCells row col) d []
  (r.2, r.1)

/-- `SudokuSolver.undo_forward_check`: re-append every logged value to the
domain of its cell. -/
def undo_forward_check : List ((Fin 9 × Fin 9) × Nat) → Doms → Doms
  | [], d => d
  | e :: rest, d => undo_forward_check rest (setDom d e.1 (d e.1 ++ [e.2]))

/-- Insert a value into an ascending list (helper for `sortAsc`). -/
def insertAsc (v : Nat) : List Nat → List Nat
  | [] => [v]
  | x :: xs => if v ≤ x then v :: x :: xs else x :: insertAsc v xs

/-- Ascending sort, modelling Python's `sorted`. -/
def sortAsc : List Nat → List Nat
  | [] => []
  | x :: xs => insertAsc x (sortAsc xs)

/-- The completeness check of `backtrack`: all 81 cells are nonzero. -/
def gridComplete (g : Grid) : Bool :=
  decide (∀ r c : Fin 9, g r c ≠ 0)

/-- The domain-wipeout gate of `backtrack`: every still-unassigned cell
has a nonempty domain. -/
def noWipeout (st : SState) : Bool :=
  decide (∀ r c : Fin 9, st.puzzle r c = 0 → 0 < (st.domains (r, c)).length)

/-- One entry of the assignment log: the Python tuple
`(row, col, domain_size, degree, value)` printed for the first four
committed assignments. -/
structure LogEntry where
  row : Fin 9
  col : Fin 9
  domSize : Nat
  degree : Int
  value : Nat
deriving DecidableEq

/-- Tags for the observational state trace. -/
inductive Snap where
  | entry
  | commit
  | undone
deriving DecidableEq

/-- Bookkeeping threaded through the search alongside the solver state:
`k` counts deadline checks, `assignments` is the Python log, `logPairs`
pairs each log entry with the state at the moment the logged cell was
selected, and the remaining fields observe behaviour after the first
deadline check that reported the limit exceeded. -/
structure Aux where
  k : Nat
  assignments : List LogEntry
  logPairs : List (LogEntry × SState)
  timedOut : Bool
  commitsAfterTimeout : Nat
  selectsAfterTimeout : Nat

/-- Result of a `backtrack` call: success flag, final state, bookkeeping,
and the trace of intermediate states. -/
structure BTRes where
  ok : Bool
  st : SState
  aux : Aux
  trace : List (Snap × SState)

/-- The state after `backtrack` commits value `v` at `(row, col)`:
`self.puzzle[row][col] = value` followed by
`removed = self.forward_checking(row, col, value)` (the assignment leaves
the domains untouched, so `forward_checking` reads the same domain map). -/
def commitState (st : SState) (row col : Fin 9) (v : Nat) : SState :=
  ⟨setCell st.puzzle row col v, (forward_checking st.domains row col v).2⟩

/-- The state after `backtrack` rolls a commit back:
`self.puzzle[row][col] = 0` followed by
`self.undo_forward_check(removed)`. -/
def undoState (stc : SState) (row col : Fin 9)
    (removed : List ((Fin 9 × Fin 9) × Nat)) : SState :=
  ⟨setCell stc.puzzle row col 0, undo_forward_check removed stc.domains⟩

/-- Instrumentation: count a commit that happens after a deadline check
has already reported the limit exceeded. -/
def commitAux (aux : Aux) : Aux :=
  if aux.timedOut then
    { aux with commitsAfterTimeout := aux.commitsAfterTimeout + 1 }
  else aux

/-- The log entry `(row, col, domain_size, degree, value)` computed by
`backtrack` right after a commit (note: on the already-assigned grid). -/
def mkEntry (st2 : SState) (row col : Fin 9) (v : Nat) : LogEntry :=
  ⟨row, col, (st2.domains (row, col)).length, degreeOf st2.puzzle row col, v⟩

/-- `if len(assignments) < 4: assignments.append(...)`, together with the
ghost copy pairing the entry with the selection-time state. -/
def logAux (aux : Aux) (entry : LogEntry) (stSel : SState) : Aux :=
  if aux.assignments.length < 4 then
    { aux with assignments := aux.assignments ++ [entry],
               logPairs := aux.logPairs ++ [(entry, stSel)] }
  else aux

/-- The `for value in sorted(self.domains[(row, col)])` loop of
`backtrack`, with the recursive call abstracted as `recur` (instantiated
with `backtrack` at one less fuel). For each candidate value: check
`is_valid`; commit (assign the cell, run `forward_checking`); log the
assignment while fewer than four entries exist; if no unassigned cell's
domain was wiped out, recurse; on failure restore (`puzzle[row][col] = 0`
and `undo_forward_check`) and try the next value. `stSel` is a ghost copy
of the state at the moment `(row, col)` was selected. -/
def tryValuesF (recur : SState → Aux → BTRes) (row col : Fin 9)
    (stSel : SState) : List Nat → SState → Aux → BTRes
  | [], st, aux => ⟨false, st, aux, []⟩
  | v :: rest, st, aux =>
    if is_valid st.puzzle row col v then
      let st2 := commitState st row col v
      let removed := (forward_checking st.domains row col v).1
      let aux2 := logAux (commitAux aux) (mkEntry st2 row col v) stSel
      if noWipeout st2 then
        let r1 := recur st2 aux2
        if r1.ok then ⟨true, r1.st, r1.aux, (Snap.commit, st2) :: r1.trace⟩
        else
          let st4 := undoState r1.st row col removed
          let r2 := tryValuesF recur row col stSel rest st4 r1.aux
          ⟨r2.ok, r2.st, r2.aux,
            (Snap.commit, st2) :: (r1.trace ++ (Snap.undone, st4) :: r2.trace)⟩
      else
        let st4 := undoState st2 row col removed
        let r2 := tryValuesF recur row col stSel rest st4 aux2
        ⟨r2.ok, r2.st, r2.aux, (Snap.commit, st2) :: (Snap.undone, st4) :: r2.trace⟩
    else
      tryValuesF recur row col stSel rest st aux

/-- `SudokuSolver.backtrack`: check the deadline (`time.time() - start_time
> limit`, here `clock k > limit` for the k-th check), then completeness,
then select a cell by MRV/degree and iterate over its sorted domain. -/
def backtrack (clock : Nat → Nat) (limit : Nat) :
    Nat → SState → Aux → BTRes
  | 0, st, aux => ⟨false, st, aux, []⟩
  | fuel + 1, st, aux =>
    if clock aux.k > limit then
      ⟨false, st, { aux with k := aux.k + 1, timedOut := true },
        [(Snap.entry, st)]⟩
    else
      let aux1 := { aux with k := aux.k + 1 }
      if gridComplete st.puzzle then ⟨true, st, aux1, [(Snap.entry, st)]⟩
      else
        let rc := select_unassigned_variable st
        let aux2 := if aux1.timedOut then
            { aux1 with selectsAfterTimeout := aux1.selectsAfterTimeout + 1 }
          else aux1
        let r := tryValuesF (backtrack clock limit fuel) rc.1 rc.2 st
          (sortAsc (st.domains rc)) st aux2
        ⟨r.ok, r.st, r.aux, (Snap.entry, st) :: r.trace⟩

/-- The bookkeeping at the start of a `solve` call. -/
def aux0 : Aux := ⟨0, [], [], false, 0, 0⟩

/-- A whole `solve` call with full observational output. -/
def solveR (clock : Nat → Nat) (limit fuel : Nat) (g : Grid) : BTRes :=
  backtrack clock limit fuel (initState g) aux0

/-- `SudokuSolver.solve`: the solved grid on success, `None` otherwise. -/
def solve (clock : Nat → Nat) (limit fuel : Nat) (g : Grid) : Option Grid :=
  let r := solveR clock limit fuel g
  if r.ok then some r.st.puzzle else none

/-- Build a grid from a list of rows (the Python literal puzzle format);
missing entries read 0. -/
def gridOf (l : List (List Nat)) : Grid :=
  fun r c => (l.getD r.val []).getD c.val 0

/-- Two cells lie in the same 3x3 box. -/
def sameBox (p q : Fin 9 × Fin 9) : Prop :=
  p.1.val / 3 = q.1.val / 3 ∧ p.2.val / 3 = q.2.val / 3

instance (p q : Fin 9 × Fin 9) : Decidable (sameBox p q) := by
  unfold sameBox; infer_instance

/-- Two cells share a row, a column, or a 3x3 box. -/
def sameUnit (p q : Fin 9 × Fin 9) : Prop :=
  p.1 = q.1 ∨ p.2 = q.2 ∨ sameBox p q

instance (p q : Fin 9 × Fin 9) : Decidable (sameUnit p q) := by
  unfold sameUnit; infer_instance

/-- The grid has no two equal nonzero digits in a shared unit, except
possibly at the pairs listed in `E` (used with `E = ∅` for full
consistency). -/
def consExcept (g : Grid) (E : Finset ((Fin 9 × Fin 9) × (Fin 9 × Fin 9))) : Prop :=
  ∀ p q : Fin 9 × Fin 9, sameUnit p q → p ≠ q → g p.1 p.2 ≠ 0 → g q.1 q.2 ≠ 0 →
    g p.1 p.2 = g q.1 q.2 → (p, q) ∈ E

instance (g : Grid) (E : Finset ((Fin 9 × Fin 9) × (Fin 9 × Fin 9))) :
    Decidable (consExcept g E) := by
  unfold consExcept; infer_instance

/-- All grid entries lie in `[0, 9]` (the spec's well-formedness
precondition on inputs). -/
def wellFormed (g : Grid) : Prop :=
  ∀ p : Fin 9 × Fin 9, g p.1 p.2 ≤ 9

instance (g : Grid) : Decidable (wellFormed g) := by
  unfold wellFormed; infer_instance

/-- The k-th cell of the box with box-coordinates `(br, bc)`. -/
def boxCell (br bc : Fin 3) (k : Fin 9) : Fin 9 × Fin 9 :=
  (⟨3 * br.val + k.val / 3, by have := br.isLt; have := k.isLt; omega⟩,
   ⟨3 * bc.val + k.val % 3, by have := bc.isLt; have := k.isLt; omega⟩)

/-- Every row, column, and 3x3 box contains each digit 1..9 exactly once
(digit `d : Fin 9` stands for the value `d.val + 1`). -/
def validGrid (g : Grid) : Prop :=
  (∀ d : Fin 9, ∀ r : Fin 9, (∃ c : Fin 9, g r c = d.val + 1) ∧
    ∀ c c' : Fin 9, g r c = d.val + 1 → g r c' = d.val + 1 → c = c') ∧
  (∀ d : Fin 9, ∀ c : Fin 9, (∃ r : Fin 9, g r c = d.val + 1) ∧
    ∀ r r' : Fin 9, g r c = d.val + 1 → g r' c = d.val + 1 → r = r') ∧
  (∀ d : Fin 9, ∀ br bc : Fin 3,
    (∃ k : Fin 9, g (boxCell br bc k).1 (boxCell br bc k).2 = d.val + 1) ∧
    ∀ k k' : Fin 9, g (boxCell br bc k).1 (boxCell br bc k).2 = d.val + 1 →
      g (boxCell br bc k').1 (boxCell br bc k').2 = d.val + 1 → k = k')

instance (g : Grid) : Decidable (validGrid g) := by
  unfold validGrid; infer_instance

/-- The values removed at cell `p` by a removal log, in log order. -/
def wsAt (p : Fin 9 × Fin 9) (l : List ((Fin 9 × Fin 9) × Nat)) : List Nat :=
  (l.filter (fun e => decide (e.1 = p))).map (fun e => e.2)

/-- Domain sanity carried through the search: every domain list is
duplicate-free and contains only values at least 1. -/
def domsOK (st : SState) : Prop :=
  ∀ p : Fin 9 × Fin 9, (st.domains p).Nodup ∧ ∀ v ∈ st.domains p, 1 ≤ v

/-- The relation each ghost log pair satisfies: the recorded domain size
is the selected cell's domain size in the selection-time state, and the
recorded degree is the selection-time degree minus 2 (the Python code
recomputes the degree after assigning the cell, which removes the cell
itself from both unassigned counts). -/
def GoodPair (es : LogEntry × SState) : Prop :=
  es.1.domSize = (es.2.domains (es.1.row, es.1.col)).length ∧
  es.1.degree = degreeOf es.2.puzzle es.1.row es.1.col - 2

/-- A clock that never advances (a run with no timeout). -/
def clockZero : Nat → Nat := fun _ => 0

/-- A clock that reports elapsed time 100 from the third deadline check
on (trips a limit of 10 in mid-search). -/
def clockTrip : Nat → Nat := fun k => if k < 2 then 0 else 100

/-- A completed valid Sudoku grid (the classic shifting pattern). -/
def patGrid : Grid := fun r c => (r.val * 3 + r.val / 3 + c.val) % 9 + 1

/-- `patGrid` with the single cell (0,0) blanked. -/
def pat1 : Grid := fun r c => if r = 0 ∧ c = 0 then 0 else patGrid r c

/-- The grid whose 81 cells all hold the digit 5 (well-formed but wildly
inconsistent, and already complete). -/
def all5 : Grid := fun _ _ => 5

/-- A well-formed grid with one blank at (0,0): row 0 is
`[0,2,3,4,5,6,7,8,9]` and every other cell holds 2. The blank can only
take the value 1, so a `solve` call fills it and succeeds. -/
def oneBlank : Grid := gridOf
  [[0,2,3,4,5,6,7,8,9],
   [2,2,2,2,2,2,2,2,2], [2,2,2,2,2,2,2,2,2], [2,2,2,2,2,2,2,2,2],
   [2,2,2,2,2,2,2,2,2], [2,2,2,2,2,2,2,2,2], [2,2,2,2,2,2,2,2,2],
   [2,2,2,2,2,2,2,2,2], [2,2,2,2,2,2,2,2,2]]

/-- A well-formed grid with two blanks at (0,0) and (0,1): row 0 is
`[0,0,3,4,5,6,7,8,9]` and every other cell holds 3, so each blank has the
two candidate values 1 and 2. -/
def twoBlank : Grid := gridOf
  [[0,0,3,4,5,6,7,8,9],
   [3,3,3,3,3,3,3,3,3], [3,3,3,3,3,3,3,3,3], [3,3,3,3,3,3,3,3,3],
   [3,3,3,3,3,3,3,3,3], [3,3,3,3,3,3,3,3,3], [3,3,3,3,3,3,3,3,3],
   [3,3,3,3,3,3,3,3,3], [3,3,3,3,3,3,3,3,3]]

/-- The spec's unsolvable example: cells (0,0) and (0,1) both hold 5 and
every other cell is empty. -/
def dupGrid : Grid := fun r c => if r = 0 ∧ (c = 0 ∨ c = 1) then 5 else 0

/-- The exception set for `dupGrid`: the one conflicting pair of fixed
cells, in both orders. -/
def dupPairs : Finset ((Fin 9 × Fin 9) × (Fin 9 × Fin 9)) :=
  {(((0 : Fin 9), (0 : Fin 9)), ((0 : Fin 9), (1 : Fin 9))),
   (((0 : Fin 9), (1 : Fin 9)), ((0 : Fin 9), (0 : Fin 9)))}

/-! ### Basic lemmas about the primitive operations -/

theorem setCell_self (g : Grid) (row col : Fin 9) (v : Nat) :
    setCell g row col v row col = v := by
  simp [setCell]

theorem setCell_ne (g : Grid) (row col : Fin 9) (v : Nat) (r c : Fin 9)
    (h : ¬(r = row ∧ c = col)) : setCell g row col v r c = g r c := by
  simp [setCell, h]

theorem setCell_cancel (g : Grid) (row col : Fin 9) (v : Nat)
    (h : g row col = 0) : setCell (setCell g row col v) row col 0 = g := by
  funext r c
  by_cases hrc : r = row ∧ c = col
  · obtain ⟨hr, hc⟩ := hrc
    subst hr; subst hc
    simp [setCell, h]
  · simp [setCell, hrc]

theorem setDom_self (d : Doms) (p : Fin 9 × Fin 9) (l : List Nat) :
    setDom d p l p = l := by
  simp [setDom]

theorem setDom_ne (d : Doms) (p q : Fin 9 × Fin 9) (l : List Nat)
    (h : q ≠ p) : setDom d p l q = d q := by
  simp [setDom, h]

theorem insertAsc_perm (v : Nat) (l : List Nat) :
    (insertAsc v l).Perm (v :: l) := by
  induction l with
  | nil => simp [insertAsc]
  | cons x xs ih =>
    by_cases h : v ≤ x
    · simp [insertAsc, h]
    · simp only [insertAsc, if_neg h]
      exact ((ih.cons x).trans (List.Perm.swap v x xs))

theorem sortAsc_perm (l : List Nat) : (sortAsc l).Perm l := by
  induction l with
  | nil => simp [sortAsc]
  | cons x xs ih => exact (insertAsc_perm x (sortAsc xs)).trans (ih.cons x)

theorem mem_sortAsc (v : Nat) (l : List Nat) : v ∈ sortAsc l ↔ v ∈ l :=
  (sortAsc_perm l).mem_iff

theorem mem_allCells (p : Fin 9 × Fin 9) : p ∈ allCells := by
  simp only [allCells, List.mem_flatMap, List.mem_map]
  exact ⟨p.1, List.mem_finRange p.1, p.2, List.mem_finRange p.2, rfl⟩

theorem gridComplete_eq_true {g : Grid} (h : gridComplete g = true) :
    ∀ r c : Fin 9, g r c ≠ 0 :=
  of_decide_eq_true h

theorem gridComplete_eq_false {g : Grid} (h : gridComplete g = false) :
    ∃ p : Fin 9 × Fin 9, g p.1 p.2 = 0 := by
  have h1 := of_decide_eq_false h
  by_contra hc
  push_neg at hc
  exact h1 (fun r c => hc (r, c))

theorem prod_ne_iff {p q : Fin 9 × Fin 9} :
    p ≠ q ↔ p.1 ≠ q.1 ∨ p.2 ≠ q.2 := by
  constructor
  · intro h
    by_contra hc
    push_neg at hc
    exact h (Prod.ext hc.1 hc.2)
  · intro h he
    subst he
    rcases h with h | h <;> exact h rfl

theorem mem_boxCells {row col : Fin 9} {p : Fin 9 × Fin 9} :
    p ∈ boxCells row col ↔ sameBox p (row, col) := by
  have hr := row.isLt
  have hc := col.isLt
  have hp1 := p.1.isLt
  have hp2 := p.2.isLt
  constructor
  · intro h
    simp only [boxCells, List.mem_flatMap, List.mem_map] at h
    obtain ⟨i, -, j, -, hp⟩ := h
    have hi := i.isLt
    have hj := j.isLt
    have e1 : p.1.val = 3 * (row.val / 3) + i.val := by rw [← hp]; rfl
    have e2 : p.2.val = 3 * (col.val / 3) + j.val := by rw [← hp]; rfl
    exact ⟨show p.1.val / 3 = row.val / 3 by omega,
      show p.2.val / 3 = col.val / 3 by omega⟩
  · intro h
    have h1 : p.1.val / 3 = row.val / 3 := h.1
    have h2 : p.2.val / 3 = col.val / 3 := h.2
    simp only [boxCells, List.mem_flatMap, List.mem_map]
    refine ⟨⟨p.1.val % 3, by omega⟩, List.mem_finRange _,
      ⟨p.2.val % 3, by omega⟩, List.mem_finRange _, ?_⟩
    have e1 : boxIdx row ⟨p.1.val % 3, by omega⟩ = p.1 := by
      apply Fin.ext
      show 3 * (row.val / 3) + p.1.val % 3 = p.1.val
      omega
    have e2 : boxIdx col ⟨p.2.val % 3, by omega⟩ = p.2 := by
      apply Fin.ext
      show 3 * (col.val / 3) + p.2.val % 3 = p.2.val
      omega
    rw [e1, e2]

theorem mem_fcCells {row col : Fin 9} {p : Fin 9 × Fin 9} :
    p ∈ fcCells row col ↔ p ≠ (row, col) ∧ sameUnit p (row, col) := by
  simp only [fcCells, List.mem_append, List.mem_map, List.mem_filter,
    List.mem_finRange, true_and, decide_eq_true_eq]
  constructor
  · rintro ((⟨r, hr, hp⟩ | ⟨c, hc, hp⟩) | ⟨hbox, hne⟩)
    · subst hp
      refine ⟨by simp [prod_ne_iff, hr], Or.inr (Or.inl rfl)⟩
    · subst hp
      refine ⟨by simp [prod_ne_iff, hc], Or.inl rfl⟩
    · exact ⟨hne, Or.inr (Or.inr (mem_boxCells.mp hbox))⟩
  · rintro ⟨hne, hu | hu | hu⟩
    · have hu' : p.1 = row := hu
      have hc : p.2 ≠ col := by
        rcases prod_ne_iff.mp hne with h | h
        · exact absurd hu' h
        · exact h
      left; right
      exact ⟨p.2, hc, by rw [← hu']⟩
    · have hu' : p.2 = col := hu
      have hr : p.1 ≠ row := by
        rcases prod_ne_iff.mp hne with h | h
        · exact h
        · exact absurd hu' h
      left; left
      exact ⟨p.1, hr, by rw [← hu']⟩
    · right
      exact ⟨mem_boxCells.mpr hu, hne⟩

theorem self_notMem_fcCells (row col : Fin 9) :
    (row, col) ∉ fcCells row col := by
  intro h
  exact (mem_fcCells.mp h).1 rfl

theorem is_valid_iff {g : Grid} {row col : Fin 9} {v : Nat} :
    is_valid g row col v = true ↔
      ∀ q : Fin 9 × Fin 9, sameUnit q (row, col) → g q.1 q.2 ≠ v := by
  simp only [is_valid, decide_eq_true_eq]
  constructor
  · rintro ⟨hrow, hcol, hbox⟩ q hq
    rcases hq with h | h | h
    · have h' : q.1 = row := h
      rw [h']
      exact hrow q.2
    · have h' : q.2 = col := h
      rw [h']
      exact hcol q.1
    · have hb : q ∈ boxCells row col := mem_boxCells.mpr h
      simp only [boxCells, List.mem_flatMap, List.mem_map] at hb
      obtain ⟨i, -, j, -, hp⟩ := hb
      rw [← hp]
      exact hbox i j
  · intro h
    refine ⟨fun c => h (row, c) (Or.inl rfl),
      fun r => h (r, col) (Or.inr (Or.inl rfl)), fun i j => ?_⟩
    apply h (boxIdx row i, boxIdx col j)
    right; right
    exact mem_boxCells.mp (by
      simp only [boxCells, List.mem_flatMap, List.mem_map]
      exact ⟨i, List.mem_finRange i, j, List.mem_finRange j, rfl⟩)

/-! ### Forward checking and its undo -/

theorem wsAt_nil (p : Fin 9 × Fin 9) : wsAt p [] = [] := rfl

theorem wsAt_cons (p : Fin 9 × Fin 9) (e : (Fin 9 × Fin 9) × Nat)
    (l : List ((Fin 9 × Fin 9) × Nat)) :
    wsAt p (e :: l) = if e.1 = p then e.2 :: wsAt p l else wsAt p l := by
  by_cases h : e.1 = p <;> simp [wsAt, List.filter_cons, h]

theorem fcLoop_fst_notMem (v : Nat) :
    ∀ (cells : List (Fin 9 × Fin 9)) (d : Doms) (rem : List ((Fin 9 × Fin 9) × Nat))
      (p : Fin 9 × Fin 9), p ∉ cells → (fcLoop v cells d rem).1 p = d p
  | [], d, rem, p, _ => rfl
  | q :: rest, d, rem, p, h => by
    have hq : p ≠ q := fun he => h (he ▸ List.mem_cons_self q rest)
    have hrest : p ∉ rest := fun he => h (List.mem_cons_of_mem q he)
    by_cases hv : v ∈ d q
    · simp only [fcLoop, if_pos hv]
      rw [fcLoop_fst_notMem v rest _ _ p hrest]
      exact setDom_ne _ _ _ _ hq
    · simp only [fcLoop, if_neg hv]
      exact fcLoop_fst_notMem v rest d rem p hrest

theorem fcLoop_spec (v : Nat) :
    ∀ (cells : List (Fin 9 × Fin 9)) (d : Doms) (rem : List ((Fin 9 × Fin 9) × Nat)),
      ∃ L, (fcLoop v cells d rem).2 = rem ++ L ∧
        (∀ e ∈ L, e.2 = v ∧ e.1 ∈ cells) ∧
        ∀ p, ((fcLoop v cells d rem).1 p ++ wsAt p L).Perm (d p)
  | [], d, rem => ⟨[], by simp [fcLoop, wsAt_nil]⟩
  | q :: rest, d, rem => by
    by_cases hv : v ∈ d q
    · obtain ⟨L, h1, h2, h3⟩ :=
        fcLoop_spec v rest (setDom d q ((d q).erase v)) (rem ++ [(q, v)])
      refine ⟨(q, v) :: L, ?_, ?_, ?_⟩
      · simp only [fcLoop, if_pos hv, h1, List.append_assoc, List.singleton_append]
      · intro e he0
        rcases List.mem_cons.mp he0 with he | he
        · subst he
          exact ⟨rfl, List.mem_cons_self q rest⟩
        · exact ⟨(h2 e he).1, List.mem_cons_of_mem q (h2 e he).2⟩
      · intro p
        simp only [fcLoop, if_pos hv]
        rw [wsAt_cons]
        by_cases hp : q = p
        · subst hp
          simp only [if_pos rfl]
          have h3q := h3 q
          rw [setDom_self] at h3q
          calc ((fcLoop v rest (setDom d q ((d q).erase v)) (rem ++ [(q, v)])).1 q
                ++ v :: wsAt q L)
              _ = _ := rfl
          refine List.perm_middle.trans ?_
          exact (h3q.cons v).trans (List.perm_cons_erase hv).symm
        · simp only [if_neg hp]
          have h3p := h3 p
          rw [setDom_ne _ _ _ _ (fun he => hp he.symm)] at h3p
          exact h3p
    · obtain ⟨L, h1, h2, h3⟩ := fcLoop_spec v rest d rem
      refine ⟨L, ?_, ?_, ?_⟩
      · simp only [fcLoop, if_neg hv, h1]
      · exact fun e he => ⟨(h2 e he).1, List.mem_cons_of_mem q (h2 e he).2⟩
      · intro p
        simp only [fcLoop, if_neg hv]
        exact h3 p

theorem fcLoop_nodup_spec (v : Nat) :
    ∀ (cells : List (Fin 9 × Fin 9)) (d : Doms) (rem : List ((Fin 9 × Fin 9) × Nat)),
      (∀ p, (d p).Nodup) →
      ∃ L, (fcLoop v cells d rem).2 = rem ++ L ∧
        (∀ p, (fcLoop v cells d rem).1 p =
          if p ∈ cells ∧ v ∈ d p then (d p).erase v else d p) ∧
        (∀ e, e ∈ L ↔ e.2 = v ∧ e.1 ∈ cells ∧ v ∈ d e.1) ∧ L.Nodup
  | [], d, rem, _ => ⟨[], by simp [fcLoop]⟩
  | q :: rest, d, rem, hnd => by
    by_cases hv : v ∈ d q
    · have hnd1 : ∀ p, ((setDom d q ((d q).erase v)) p).Nodup := by
        intro p
        by_cases hp : p = q
        · subst hp
          rw [setDom_self]
          exact (hnd p).erase v
        · rw [setDom_ne _ _ _ _ hp]
          exact hnd p
      obtain ⟨L, h1, h2, h3, h4⟩ :=
        fcLoop_nodup_spec v rest (setDom d q ((d q).erase v)) (rem ++ [(q, v)]) hnd1
      have hvq : v ∉ (d q).erase v := by
        intro hin
        exact absurd ((List.Nodup.mem_erase_iff (hnd q)).mp hin).1 (by simp)
      refine ⟨(q, v) :: L, ?_, ?_, ?_, ?_⟩
      · simp only [fcLoop, if_pos hv, h1, List.append_assoc, List.singleton_append]
      · intro p
        simp only [fcLoop, if_pos hv]
        rw [h2 p]
        by_cases hp : p = q
        · subst hp
          rw [setDom_self]
          have : ¬(p ∈ rest ∧ v ∈ (d p).erase v) := fun hc => hvq hc.2
          rw [if_neg this, if_pos ⟨List.mem_cons_self p rest, hv⟩]
        · rw [setDom_ne _ _ _ _ hp]
          by_cases hr : p ∈ rest ∧ v ∈ d p
          · rw [if_pos hr, if_pos ⟨List.mem_cons_of_mem q hr.1, hr.2⟩]
          · have hno : ¬(p ∈ q :: rest ∧ v ∈ d p) := by
              rintro ⟨hm0, hdv⟩
              rcases List.mem_cons.mp hm0 with hm | hm
              · exact hp hm
              · exact hr ⟨hm, hdv⟩
            rw [if_neg hr, if_neg hno]
      · intro e
        rw [List.mem_cons, h3 e]
        constructor
        · rintro (he | ⟨he1, he2, he3⟩)
          · subst he
            exact ⟨rfl, List.mem_cons_self q rest, hv⟩
          · have hne : e.1 ≠ q := by
              intro hc
              rw [hc, setDom_self] at he3
              exact hvq he3
            rw [setDom_ne _ _ _ _ hne] at he3
            exact ⟨he1, List.mem_cons_of_mem q he2, he3⟩
        · rintro ⟨he1, he2, he3⟩
          by_cases heq : e.1 = q
          · left
            have : e = (e.1, e.2) := rfl
            rw [this, heq, he1]
          · right
            rcases List.mem_cons.mp he2 with hm | hm
            · exact absurd hm heq
            · rw [setDom_ne _ _ _ _ heq]
              exact ⟨he1, hm, he3⟩
      · refine List.nodup_cons.mpr ⟨?_, h4⟩
        intro hc
        have := ((h3 (q, v)).mp hc).2.2
        rw [setDom_self] at this
        exact hvq this
    · obtain ⟨L, h1, h2, h3, h4⟩ := fcLoop_nodup_spec v rest d rem hnd
      refine ⟨L, ?_, ?_, ?_, h4⟩
      · simp only [fcLoop, if_neg hv, h1]
      · intro p
        simp only [fcLoop, if_neg hv]
        rw [h2 p]
        by_cases hp : p = q
        · subst hp
          have c1 : ¬(p ∈ rest ∧ v ∈ d p) := fun hc => hv hc.2
          have c2 : ¬(p ∈ p :: rest ∧ v ∈ d p) := fun hc => hv hc.2
          rw [if_neg c1, if_neg c2]
        · by_cases hr : p ∈ rest ∧ v ∈ d p
          · rw [if_pos hr, if_pos ⟨List.mem_cons_of_mem q hr.1, hr.2⟩]
          · have hno : ¬(p ∈ q :: rest ∧ v ∈ d p) := by
              rintro ⟨hm0, hdv⟩
              rcases List.mem_cons.mp hm0 with hm | hm
              · exact hp hm
              · exact hr ⟨hm, hdv⟩
            rw [if_neg hr, if_neg hno]
      · intro e
        rw [h3 e]
        constructor
        · rintro ⟨he1, he2, he3⟩
          exact ⟨he1, List.mem_cons_of_mem q he2, he3⟩
        · rintro ⟨he1, he2, he3⟩
          rcases List.mem_cons.mp he2 with hm | hm
          · rw [hm] at he3
            exact absurd he3 hv
          · exact ⟨he1, hm, he3⟩

theorem undo_forward_check_apply :
    ∀ (l : List ((Fin 9 × Fin 9) × Nat)) (d : Doms) (p : Fin 9 × Fin 9),
      undo_forward_check l d p = d p ++ wsAt p l
  | [], d, p => by simp [undo_forward_check, wsAt_nil]
  | e :: rest, d, p => by
    rw [undo_forward_check, undo_forward_check_apply rest _ p, wsAt_cons]
    by_cases h : e.1 = p
    · rw [if_pos h, ← h, setDom_self, List.append_assoc, List.singleton_append]
    · rw [if_neg h, setDom_ne _ _ _ _ (fun he => h he.symm)]

theorem fc_spec (d : Doms) (row col : Fin 9) (v : Nat) :
    (∀ e ∈ (forward_checking d row col v).1, e.2 = v ∧ e.1 ∈ fcCells row col) ∧
    ∀ p, ((forward_checking d row col v).2 p ++ wsAt p (forward_checking d row col v).1).Perm (d p) := by
  obtain ⟨L, h1, h2, h3⟩ := fcLoop_spec v (fcCells row col) d []
  have hL : (forward_checking d row col v).1 = L := by
    simp only [forward_checking]
    rw [h1]
    simp
  constructor
  · rw [hL]
    exact h2
  · intro p
    rw [hL]
    exact h3 p

theorem fc_own_domain (d : Doms) (row col : Fin 9) (v : Nat) :
    (forward_checking d row col v).2 (row, col) = d (row, col) :=
  fcLoop_fst_notMem v (fcCells row col) d [] (row, col) (self_notMem_fcCells row col)

theorem fc_subset (d : Doms) (row col : Fin 9) (v : Nat) (p : Fin 9 × Fin 9)
    (x : Nat) (hx : x ∈ (forward_checking d row col v).2 p) : x ∈ d p := by
  have h := (fc_spec d row col v).2 p
  exact h.mem_iff.mp (List.mem_append_left _ hx)

theorem fc_restore (d d1 : Doms) (row col : Fin 9) (v : Nat)
    (h : ∀ p, (d1 p).Perm ((forward_checking d row col v).2 p)) (p : Fin 9 × Fin 9) :
    (undo_forward_check (forward_checking d row col v).1 d1 p).Perm (d p) := by
  rw [undo_forward_check_apply]
  exact ((h p).append_right _).trans ((fc_spec d row col v).2 p)

theorem fc_nodup (d : Doms) (row col : Fin 9) (v : Nat)
    (hnd : ∀ p, (d p).Nodup) (p : Fin 9 × Fin 9) :
    ((forward_checking d row col v).2 p).Nodup := by
  obtain ⟨L, h1, h2, h3, h4⟩ := fcLoop_nodup_spec v (fcCells row col) d [] hnd
  have : (forward_checking d row col v).2 p = (fcLoop v (fcCells row col) d []).1 p := rfl
  rw [this, h2 p]
  by_cases hc : p ∈ fcCells row col ∧ v ∈ d p
  · rw [if_pos hc]
    exact (hnd p).erase v
  · rw [if_neg hc]
    exact hnd p

/-- C3 -- Idempotence of undo: running `forward_checking(row, col, value)`
and then `undo_forward_check` on the removal log it returned leaves every
cell's domain set-equal (indeed multiset-equal) to its domain before the
`forward_checking` call; this holds for every domain map, every cell, and
every value. -/
theorem claim_C3_undo_restores (d : Doms) (row col : Fin 9) (v : Nat)
    (p : Fin 9 × Fin 9) (x : Nat) :
    x ∈ undo_forward_check (forward_checking d row col v).1
        ((forward_checking d row col v).2) p ↔ x ∈ d p := by
  have h := fc_restore d (forward_checking d row col v).2 row col v
    (fun _ => List.Perm.refl _) p
  exact h.mem_iff

/-- C4 -- `forward_checking` contract (for duplicate-free domains, which
is invariant during solving, cf. C10): it removes `value` from the domain
of every peer cell -- every cell sharing the row, column, or 3x3 box,
excluding `(row, col)` itself -- whose domain contains it, logs exactly
one `(peer, value)` triple per removal, logs nothing else, and never
removes or logs the same peer-and-value pair twice (the log is
duplicate-free), even for box peers that also share the row or column. -/
theorem claim_C4_forward_checking_contract (d : Doms) (row col : Fin 9) (v : Nat)
    (hnd : ∀ p, (d p).Nodup) :
    (∀ p : Fin 9 × Fin 9, (forward_checking d row col v).2 p =
      if p ≠ (row, col) ∧ sameUnit p (row, col) ∧ v ∈ d p
      then (d p).erase v else d p) ∧
    (∀ p : Fin 9 × Fin 9, p ≠ (row, col) → sameUnit p (row, col) → v ∈ d p →
      v ∉ (forward_checking d row col v).2 p ∧ (p, v) ∈ (forward_checking d row col v).1) ∧
    (∀ e ∈ (forward_checking d row col v).1,
      e.2 = v ∧ e.1 ≠ (row, col) ∧ sameUnit e.1 (row, col) ∧ v ∈ d e.1) ∧
    ((forward_checking d row col v).1).Nodup := by
  obtain ⟨L, h1, h2, h3, h4⟩ := fcLoop_nodup_spec v (fcCells row col) d [] hnd
  have hL : (forward_checking d row col v).1 = L := by
    simp only [forward_checking]
    rw [h1]
    simp
  have hD : ∀ p, (forward_checking d row col v).2 p =
      (fcLoop v (fcCells row col) d []).1 p := fun _ => rfl
  have hchar : ∀ p : Fin 9 × Fin 9, (forward_checking d row col v).2 p =
      if p ≠ (row, col) ∧ sameUnit p (row, col) ∧ v ∈ d p
      then (d p).erase v else d p := by
    intro p
    rw [hD p, h2 p]
    by_cases hc : p ∈ fcCells row col ∧ v ∈ d p
    · rw [if_pos hc, if_pos ⟨(mem_fcCells.mp hc.1).1, (mem_fcCells.mp hc.1).2, hc.2⟩]
    · have : ¬(p ≠ (row, col) ∧ sameUnit p (row, col) ∧ v ∈ d p) := by
        rintro ⟨hne, hu, hv⟩
        exact hc ⟨mem_fcCells.mpr ⟨hne, hu⟩, hv⟩
      rw [if_neg hc, if_neg this]
  refine ⟨hchar, ?_, ?_, ?_⟩
  · intro p hne hu hv
    constructor
    · rw [hchar p, if_pos ⟨hne, hu, hv⟩]
      intro hc
      exact absurd ((List.Nodup.mem_erase_iff (hnd p)).mp hc).1 (by simp)
    · rw [hL]
      exact (h3 (p, v)).mpr ⟨rfl, mem_fcCells.mpr ⟨hne, hu⟩, hv⟩
  · intro e he
    rw [hL] at he
    obtain ⟨he1, he2, he3⟩ := (h3 e).mp he
    exact ⟨he1, (mem_fcCells.mp he2).1, (mem_fcCells.mp he2).2, he3⟩
  · rw [hL]
    exact h4

theorem claim_C4_witness :
    (∀ p, ((initState oneBlank).domains p).Nodup) ∧
    ((forward_checking (initState oneBlank).domains 0 0 5).1).Nodup :=
  ⟨by decide, (claim_C4_forward_checking_contract
    (initState oneBlank).domains 0 0 5 (by decide)).2.2.2⟩

/-- C5 amended -- the singleton-domain invariant holds only for the
originally fixed cells: at initialization every nonzero cell's domain is
exactly the singleton of its value, but a commit never updates the
committed cell's own domain (`forward_checking` skips `(row, col)`), so a
cell assigned during search keeps its pre-commit domain, which in general
is not a singleton. -/
theorem claim_C5_amended :
    (∀ g : Grid, ∀ p : Fin 9 × Fin 9, g p.1 p.2 ≠ 0 →
      (initState g).domains p = [g p.1 p.2]) ∧
    (∀ (d : Doms) (row col : Fin 9) (v : Nat),
      (forward_checking d row col v).2 (row, col) = d (row, col)) := by
  constructor
  · intro g p h
    simp [initState, h]
  · intro d row col v
    exact fc_own_domain d row col v

theorem claim_C5_witness :
    oneBlank 0 2 ≠ 0 ∧ (initState oneBlank).domains (0, 2) = [oneBlank 0 2] :=
  ⟨by decide, claim_C5_amended.1 oneBlank (0, 2) (by decide)⟩

/-- C5 counterexample -- the claimed invariant fails during a `solve`
call on `oneBlank`: right after `backtrack` commits the value 1 to cell
(0,0) (the state traced at the commit point), the cell's grid entry is
nonzero but its domain is still `[1,...,9]`, not the singleton `[1]`. -/
theorem claim_C5_counterexample :
    ∃ ts ∈ (solveR clockZero 3600 5 oneBlank).trace, ts.1 = Snap.commit ∧
      ∃ p : Fin 9 × Fin 9, ts.2.puzzle p.1 p.2 ≠ 0 ∧
        ts.2.domains p ≠ [ts.2.puzzle p.1 p.2] := by decide

/-- C7 -- timeout safety: with a time budget of 0, `solve` returns
`Unsolved` for every input grid and every fuel, as soon as the first
deadline check observes a positive elapsed time (`time.time()` has moved
past `start_time`): the check at the entry of the first recursive step
already reports the budget as exceeded. -/
theorem claim_C7_zero_budget (g : Grid) (clock : Nat → Nat) (fuel : Nat)
    (h : 0 < clock 0) : solve clock 0 fuel g = none := by
  cases fuel with
  | zero => rfl
  | succ n =>
    simp only [solve, solveR, backtrack, aux0]
    rw [if_pos (show clock 0 > 0 from h)]
    rfl

theorem claim_C7_witness :
    0 < (fun _ : Nat => 1) 0 ∧ solve (fun _ => 1) 0 3 oneBlank = none :=
  ⟨by decide, claim_C7_zero_budget oneBlank (fun _ => 1) 3 (by decide)⟩

/-- C1 counterexample -- validity does not hold unconditionally: on the
well-formed but contradictory input `all5` (every cell 5), `backtrack`'s
completeness check succeeds immediately, so `solve` returns the input as
a `SolvedGrid`, and that grid has no row, column, or box containing each
digit exactly once. -/
theorem claim_C1_counterexample :
    solve clockZero 3600 3 all5 = some all5 ∧ ¬ validGrid all5 :=
  ⟨rfl, by decide⟩

/-- The complete valid grid `patGrid` with cell (0,1) overwritten by the
value of cell (0,0): a full grid holding two identical digits in row 0. -/
def dupRowFull : Grid :=
  fun r c => if r = 0 ∧ c = 1 then patGrid 0 0 else patGrid r c

/-- C6 counterexample -- a grid with two identical fixed digits in the
same row for which `solve` does not return `Unsolved`: `dupRowFull` is
already complete, so the completeness check accepts it as solved and
`solve` returns it unchanged. -/
theorem claim_C6_counterexample :
    dupRowFull 0 0 = dupRowFull 0 1 ∧ dupRowFull 0 0 ≠ 0 ∧
      solve clockZero 3600 3 dupRowFull = some dupRowFull :=
  ⟨by decide, by decide, rfl⟩

/-! ### The variable selector -/

theorem mrvStep_zero (st : SState) (acc : Option Nat × List (Fin 9 × Fin 9))
    (p : Fin 9 × Fin 9) (hacc : ∀ q ∈ acc.2, st.puzzle q.1 q.2 = 0) :
    ∀ q ∈ (mrvStep st acc p).2, st.puzzle q.1 q.2 = 0 := by
  obtain ⟨m, lst⟩ := acc
  by_cases h0 : st.puzzle p.1 p.2 = 0
  · cases m with
    | none =>
      simp only [mrvStep, if_pos h0]
      intro q hq
      rw [List.mem_singleton.mp hq]
      exact h0
    | some m =>
      simp only [mrvStep, if_pos h0]
      by_cases hlt : (st.domains p).length < m
      · rw [if_pos hlt]
        intro q hq
        rw [List.mem_singleton.mp hq]
        exact h0
      · rw [if_neg hlt]
        by_cases heq : (st.domains p).length = m
        · rw [if_pos heq]
          intro q hq
          rcases List.mem_append.mp hq with hq | hq
          · exact hacc q hq
          · rw [List.mem_singleton.mp hq]
            exact h0
        · rw [if_neg heq]
          exact hacc
  · simp only [mrvStep, if_neg h0]
    exact hacc

theorem mrv_fold_zero (st : SState) :
    ∀ (L : List (Fin 9 × Fin 9)) (acc : Option Nat × List (Fin 9 × Fin 9)),
      (∀ q ∈ acc.2, st.puzzle q.1 q.2 = 0) →
      ∀ q ∈ (L.foldl (mrvStep st) acc).2, st.puzzle q.1 q.2 = 0
  | [], _, hacc => hacc
  | a :: L, acc, hacc =>
    mrv_fold_zero st L (mrvStep st acc a) (mrvStep_zero st acc a hacc)

/-- The combined invariant of the MRV scan: once a best domain size is
recorded, the candidate list is nonempty. -/
def MrvGood (acc : Option Nat × List (Fin 9 × Fin 9)) : Prop :=
  acc.1.isSome = true → acc.2 ≠ []

/-- After processing a cell, the invariant is preserved. -/
theorem mrvStep_good (st : SState) (acc : Option Nat × List (Fin 9 × Fin 9))
    (p : Fin 9 × Fin 9) (h : MrvGood acc) : MrvGood (mrvStep st acc p) := by
  obtain ⟨m, lst⟩ := acc
  by_cases h0 : st.puzzle p.1 p.2 = 0
  · cases m with
    | none =>
      simp only [mrvStep, if_pos h0]
      intro _
      simp
    | some m =>
      simp only [mrvStep, if_pos h0]
      by_cases hlt : (st.domains p).length < m
      · rw [if_pos hlt]
        intro _
        simp
      · rw [if_neg hlt]
        by_cases heq : (st.domains p).length = m
        · rw [if_pos heq]
          intro _
          simp
        · rw [if_neg heq]
          exact h
  · simp only [mrvStep, if_neg h0]
    exact h

/-- Processing an unassigned cell establishes a nonempty candidate list
with a recorded best size. -/
theorem mrvStep_estab (st : SState) (acc : Option Nat × List (Fin 9 × Fin 9))
    (p : Fin 9 × Fin 9) (hg : MrvGood acc) (h0 : st.puzzle p.1 p.2 = 0) :
    (mrvStep st acc p).1.isSome = true ∧ (mrvStep st acc p).2 ≠ [] := by
  obtain ⟨m, lst⟩ := acc
  cases m with
  | none =>
    simp only [mrvStep, if_pos h0]
    exact ⟨rfl, by simp⟩
  | some m =>
    simp only [mrvStep, if_pos h0]
    by_cases hlt : (st.domains p).length < m
    · rw [if_pos hlt]
      exact ⟨rfl, by simp⟩
    · rw [if_neg hlt]
      by_cases heq : (st.domains p).length = m
      · rw [if_pos heq]
        exact ⟨rfl, by simp⟩
      · rw [if_neg heq]
        exact ⟨rfl, hg rfl⟩

/-- The established invariant is preserved by further steps. -/
theorem mrvStep_keep (st : SState) (acc : Option Nat × List (Fin 9 × Fin 9))
    (p : Fin 9 × Fin 9) (h : acc.1.isSome = true ∧ acc.2 ≠ []) :
    (mrvStep st acc p).1.isSome = true ∧ (mrvStep st acc p).2 ≠ [] := by
  obtain ⟨m, lst⟩ := acc
  cases m with
  | none => exact absurd h.1 (by simp)
  | some m =>
    by_cases h0 : st.puzzle p.1 p.2 = 0
    · simp only [mrvStep, if_pos h0]
      by_cases hlt : (st.domains p).length < m
      · rw [if_pos hlt]
        exact ⟨rfl, by simp⟩
      · rw [if_neg hlt]
        by_cases heq : (st.domains p).length = m
        · rw [if_pos heq]
          exact ⟨rfl, by simp⟩
        · rw [if_neg heq]
          exact h
    · simp only [mrvStep, if_neg h0]
      exact h

theorem mrv_fold_keep (st : SState) :
    ∀ (L : List (Fin 9 × Fin 9)) (acc : Option Nat × List (Fin 9 × Fin 9)),
      acc.1.isSome = true ∧ acc.2 ≠ [] →
      (L.foldl (mrvStep st) acc).1.isSome = true ∧ (L.foldl (mrvStep st) acc).2 ≠ []
  | [], _, h => h
  | a :: L, acc, h => mrv_fold_keep st L (mrvStep st acc a) (mrvStep_keep st acc a h)

theorem mrv_fold_reaches (st : SState) :
    ∀ (L : List (Fin 9 × Fin 9)) (p0 : Fin 9 × Fin 9), p0 ∈ L →
      st.puzzle p0.1 p0.2 = 0 →
      ∀ acc : Option Nat × List (Fin 9 × Fin 9), MrvGood acc →
        (L.foldl (mrvStep st) acc).2 ≠ []
  | [], p0, hp0, _, _, _ => absurd hp0 (List.not_mem_nil p0)
  | a :: L, p0, hp0, h0, acc, hg => by
    rcases List.mem_cons.mp hp0 with he | he
    · subst he
      exact (mrv_fold_keep st L (mrvStep st acc p0) (mrvStep_estab st acc p0 hg h0)).2
    · exact mrv_fold_reaches st L p0 he h0 (mrvStep st acc a) (mrvStep_good st acc a hg)

theorem deg_fold_mem (g : Grid) (M : List (Fin 9 × Fin 9)) :
    ∀ (L : List (Fin 9 × Fin 9)) (acc : Int × Option (Fin 9 × Fin 9)),
      (∀ q, acc.2 = some q → q ∈ M) → (∀ q ∈ L, q ∈ M) →
      ∀ q, (L.foldl (degStep g) acc).2 = some q → q ∈ M
  | [], _, hacc, _, q, hq => hacc q hq
  | a :: L, acc, hacc, hL, q, hq => by
    refine deg_fold_mem g M L (degStep g acc a) ?_ (fun q hq => hL q (List.mem_cons_of_mem a hq)) q hq
    intro q' hq'
    by_cases hgt : degreeOf g a.1 a.2 > acc.1
    · simp only [degStep, if_pos hgt] at hq'
      rw [← Option.some_inj.mp hq']
      exact hL a (List.mem_cons_self a L)
    · simp only [degStep, if_neg hgt] at hq'
      exact hacc q' hq'

/-- When some cell is unassigned, the selector returns an unassigned
cell. -/
theorem select_unassigned (st : SState)
    (h : ∃ p : Fin 9 × Fin 9, st.puzzle p.1 p.2 = 0) :
    st.puzzle (select_unassigned_variable st).1 (select_unassigned_variable st).2 = 0 := by
  obtain ⟨p0, hp0⟩ := h
  have hzero : ∀ q ∈ (allCells.foldl (mrvStep st) (none, [])).2,
      st.puzzle q.1 q.2 = 0 :=
    mrv_fold_zero st allCells (none, []) (by intro q hq; exact absurd hq (List.not_mem_nil q))
  have hne : (allCells.foldl (mrvStep st) (none, [])).2 ≠ [] :=
    mrv_fold_reaches st allCells p0 (mem_allCells p0) hp0 (none, []) (by intro hc; simp at hc)
  have hdeg : ∀ q, ((allCells.foldl (mrvStep st) (none, [])).2.foldl
        (degStep st.puzzle) (-1, none)).2 = some q →
      q ∈ (allCells.foldl (mrvStep st) (none, [])).2 :=
    deg_fold_mem st.puzzle _ _ (-1, none) (by intro q hq; simp at hq) (fun q hq => hq)
  simp only [select_unassigned_variable]
  cases hsel : ((allCells.foldl (mrvStep st) (none, [])).2.foldl
      (degStep st.puzzle) (-1, none)).2 with
  | some p =>
    exact hzero p (hdeg p hsel)
  | none =>
    show st.puzzle ((allCells.foldl (mrvStep st) (none, [])).2.headD (0, 0)).1
      ((allCells.foldl (mrvStep st) (none, [])).2.headD (0, 0)).2 = 0
    cases hcs : (allCells.foldl (mrvStep st) (none, [])).2 with
    | nil => exact absurd hcs hne
    | cons a l =>
      simp only [List.headD_cons]
      exact hzero a (by rw [hcs]; exact List.mem_cons_self a l)

/-! ### The degree drop after assignment -/

theorem degree_after_assign (g : Grid) (row col : Fin 9) (v : Nat)
    (hg : g row col = 0) (hv : v ≠ 0) :
    degreeOf (setCell g row col v) row col = degreeOf g row col - 2 := by
  have keyc : ∀ r, setCell g row col v r col = if r = row then v else g r col := by
    intro r
    by_cases hr : r = row <;> simp [setCell, hr]
  have keyr : ∀ c, setCell g row col v row c = if c = col then v else g row c := by
    intro c
    by_cases hc : c = col <;> simp [setCell, hc]
  have hcolF : Finset.univ.filter (fun r : Fin 9 => setCell g row col v r col = 0) =
      (Finset.univ.filter (fun r : Fin 9 => g r col = 0)).erase row := by
    ext r
    simp only [Finset.mem_filter, Finset.mem_erase, Finset.mem_univ, true_and, keyc]
    by_cases hr : r = row
    · subst hr
      simp [hv]
    · simp [hr]
  have hrowF : Finset.univ.filter (fun c : Fin 9 => setCell g row col v row c = 0) =
      (Finset.univ.filter (fun c : Fin 9 => g row c = 0)).erase col := by
    ext c
    simp only [Finset.mem_filter, Finset.mem_erase, Finset.mem_univ, true_and, keyr]
    by_cases hc : c = col
    · subst hc
      simp [hv]
    · simp [hc]
  have hmc : row ∈ Finset.univ.filter (fun r : Fin 9 => g r col = 0) := by
    simp [hg]
  have hmr : col ∈ Finset.univ.filter (fun c : Fin 9 => g row c = 0) := by
    simp [hg]
  have hposc : 1 ≤ colCount g col := Finset.card_pos.mpr ⟨row, hmc⟩
  have hposr : 1 ≤ rowCount g row := Finset.card_pos.mpr ⟨col, hmr⟩
  have ec : colCount (setCell g row col v) col = colCount g col - 1 := by
    unfold colCount
    rw [hcolF]
    exact Finset.card_erase_of_mem hmc
  have er : rowCount (setCell g row col v) row = rowCount g row - 1 := by
    unfold rowCount
    rw [hrowF]
    exact Finset.card_erase_of_mem hmr
  unfold degreeOf
  rw [ec, er]
  omega

/-! ### Fidelity: originally fixed cells never change -/

/-- The grid of `st` agrees with the original grid `orig` on every cell
that is fixed (nonzero) in `orig`. -/
def Fid (orig : Grid) (st : SState) : Prop :=
  ∀ p : Fin 9 × Fin 9, orig p.1 p.2 ≠ 0 → st.puzzle p.1 p.2 = orig p.1 p.2

theorem Fid_orig_zero {orig : Grid} {st : SState} {row col : Fin 9}
    (hF : Fid orig st) (h0 : st.puzzle row col = 0) : orig row col = 0 := by
  by_contra h
  rw [hF (row, col) h] at h0
  exact h h0

theorem Fid_update {orig g : Grid} {row col : Fin 9} (v : Nat)
    (hF : ∀ p : Fin 9 × Fin 9, orig p.1 p.2 ≠ 0 → g p.1 p.2 = orig p.1 p.2)
    (h0 : orig row col = 0) :
    ∀ p : Fin 9 × Fin 9, orig p.1 p.2 ≠ 0 →
      setCell g row col v p.1 p.2 = orig p.1 p.2 := by
  intro p hp
  rw [setCell_ne]
  · exact hF p hp
  · rintro ⟨h1, h2⟩
    apply hp
    show orig p.1 p.2 = 0
    have : p = (row, col) := Prod.ext h1 h2
    rw [this]
    exact h0

theorem tryValuesF_fid (orig : Grid) (recur : SState → Aux → BTRes)
    (hrec : ∀ st aux, Fid orig st → Fid orig (recur st aux).st)
    (row col : Fin 9) (stSel : SState) :
    ∀ (vals : List Nat) (st : SState) (aux : Aux),
      Fid orig st → st.puzzle row col = 0 →
      Fid orig (tryValuesF recur row col stSel vals st aux).st := by
  intro vals
  induction vals with
  | nil =>
    intro st aux hF _
    simp only [tryValuesF]
    exact hF
  | cons v rest ih =>
    intro st aux hF h0
    have horig : orig row col = 0 := Fid_orig_zero hF h0
    by_cases hv : is_valid st.puzzle row col v = true
    · simp only [tryValuesF, if_pos hv]
      have hF2 : Fid orig (commitState st row col v) := Fid_update v hF horig
      by_cases hnw : noWipeout (commitState st row col v) = true
      · rw [if_pos hnw]
        cases hok : (recur (commitState st row col v)
            (logAux (commitAux aux) (mkEntry (commitState st row col v) row col v) stSel)).ok with
        | true =>
          rw [if_pos rfl]
          exact hrec _ _ hF2
        | false =>
          rw [if_neg Bool.false_ne_true]
          apply ih
          · exact Fid_update 0 (hrec _ _ hF2) horig
          · exact setCell_self _ row col 0
      · rw [if_neg hnw]
        apply ih
        · exact Fid_update 0 hF2 horig
        · exact setCell_self _ row col 0
    · simp only [tryValuesF, if_neg hv]
      exact ih st aux hF h0

theorem backtrack_fid (orig : Grid) (clock : Nat → Nat) (limit : Nat) :
    ∀ (fuel : Nat) (st : SState) (aux : Aux), Fid orig st →
      Fid orig (backtrack clock limit fuel st aux).st
  | 0, st, aux, hF => by
    simp only [backtrack]
    exact hF
  | fuel + 1, st, aux, hF => by
    simp only [backtrack]
    by_cases ht : clock aux.k > limit
    · rw [if_pos ht]
      exact hF
    · rw [if_neg ht]
      by_cases hcomp : gridComplete st.puzzle = true
      · rw [if_pos hcomp]
        exact hF
      · rw [if_neg hcomp]
        have hsel : st.puzzle (select_unassigned_variable st).1
            (select_unassigned_variable st).2 = 0 :=
          select_unassigned st (gridComplete_eq_false (Bool.eq_false_iff.mpr hcomp))
        exact tryValuesF_fid orig _
          (fun st' aux' hF' => backtrack_fid orig clock limit fuel st' aux' hF')
          _ _ _ _ st _ hF hsel

/-- C2 -- Fidelity: on every successful `solve` call, each
originally-fixed (nonzero) cell of the input retains its original value
in the returned grid; the search assigns only cells that were 0 and
resets any cell it assigned back to 0 on failing paths. -/
theorem claim_C2_fidelity (clock : Nat → Nat) (limit fuel : Nat) (g0 g : Grid)
    (h : solve clock limit fuel g0 = some g) :
    ∀ p : Fin 9 × Fin 9, g0 p.1 p.2 ≠ 0 → g p.1 p.2 = g0 p.1 p.2 := by
  have hFid : Fid g0 (solveR clock limit fuel g0).st :=
    backtrack_fid g0 clock limit fuel (initState g0) aux0 (fun p _ => rfl)
  simp only [solve] at h
  by_cases hok : (solveR clock limit fuel g0).ok = true
  · rw [if_pos hok] at h
    intro p hp
    rw [← Option.some_inj.mp h]
    exact hFid p hp
  · rw [if_neg hok] at h
    exact absurd h (by simp)

theorem claim_C2_witness :
    solve clockZero 3600 5 oneBlank =
      some ((solveR clockZero 3600 5 oneBlank).st.puzzle) ∧
    oneBlank 0 2 ≠ 0 ∧
    (solveR clockZero 3600 5 oneBlank).st.puzzle 0 2 = oneBlank 0 2 :=
  ⟨rfl, by decide,
    claim_C2_fidelity clockZero 3600 5 oneBlank _ rfl (0, 2) (by decide)⟩

/-! ### Consistency invariants through the search -/

theorem sameUnit_symm {p q : Fin 9 × Fin 9} (h : sameUnit p q) : sameUnit q p := by
  rcases h with h | h | h
  · exact Or.inl h.symm
  · exact Or.inr (Or.inl h.symm)
  · exact Or.inr (Or.inr ⟨h.1.symm, h.2.symm⟩)

/-- The invariant of the consistency induction: entries at most 9, no
conflicting pair outside `E`, and all domain values in `[1, 9]`. -/
def ICons (E : Finset ((Fin 9 × Fin 9) × (Fin 9 × Fin 9))) (st : SState) : Prop :=
  (∀ p : Fin 9 × Fin 9, st.puzzle p.1 p.2 ≤ 9) ∧
  consExcept st.puzzle E ∧
  (∀ p : Fin 9 × Fin 9, ∀ x ∈ st.domains p, 1 ≤ x ∧ x ≤ 9)

theorem consExcept_setCell {E : Finset ((Fin 9 × Fin 9) × (Fin 9 × Fin 9))}
    {g : Grid} {row col : Fin 9} {v : Nat}
    (hcons : consExcept g E) (hvalid : is_valid g row col v = true) :
    consExcept (setCell g row col v) E := by
  have hval := is_valid_iff.mp hvalid
  intro p q hu hne hp hq heq
  by_cases hpe : p.1 = row ∧ p.2 = col
  · have hpv : setCell g row col v p.1 p.2 = v := by
      simp [setCell, hpe.1, hpe.2]
    have hqne : ¬(q.1 = row ∧ q.2 = col) := by
      rintro ⟨h1, h2⟩
      exact hne (by
        apply Prod.ext
        · rw [hpe.1, h1]
        · rw [hpe.2, h2])
    have hqv : setCell g row col v q.1 q.2 = g q.1 q.2 := setCell_ne _ _ _ _ _ _ hqne
    rw [hpv] at heq
    rw [hqv] at heq hq
    have huq : sameUnit q (row, col) := by
      have hs : sameUnit q p := sameUnit_symm hu
      have hp' : p = (row, col) := Prod.ext hpe.1 hpe.2
      rwa [hp'] at hs
    exact absurd heq.symm (hval q huq)
  · by_cases hqe : q.1 = row ∧ q.2 = col
    · have hqv : setCell g row col v q.1 q.2 = v := by
        simp [setCell, hqe.1, hqe.2]
      have hpv : setCell g row col v p.1 p.2 = g p.1 p.2 := setCell_ne _ _ _ _ _ _ hpe
      rw [hqv] at heq
      rw [hpv] at heq hp
      have hup : sameUnit p (row, col) := by
        have hq' : q = (row, col) := Prod.ext hqe.1 hqe.2
        rwa [hq'] at hu
      exact absurd heq (hval p hup)
    · rw [setCell_ne _ _ _ _ _ _ hpe] at hp heq
      rw [setCell_ne _ _ _ _ _ _ hqe] at hq heq
      exact hcons p q hu hne hp hq heq

theorem consExcept_unassign {E : Finset ((Fin 9 × Fin 9) × (Fin 9 × Fin 9))}
    {g : Grid} (row col : Fin 9) (hcons : consExcept g E) :
    consExcept (setCell g row col 0) E := by
  intro p q hu hne hp hq heq
  have hpe : ¬(p.1 = row ∧ p.2 = col) := by
    rintro ⟨h1, h2⟩
    apply hp
    simp [setCell, h1, h2]
  have hqe : ¬(q.1 = row ∧ q.2 = col) := by
    rintro ⟨h1, h2⟩
    apply hq
    simp [setCell, h1, h2]
  rw [setCell_ne _ _ _ _ _ _ hpe] at hp heq
  rw [setCell_ne _ _ _ _ _ _ hqe] at hq heq
  exact hcons p q hu hne hp hq heq

theorem le9_setCell {g : Grid} {row col : Fin 9} {v : Nat}
    (hle : ∀ p : Fin 9 × Fin 9, g p.1 p.2 ≤ 9) (hv : v ≤ 9) :
    ∀ p : Fin 9 × Fin 9, setCell g row col v p.1 p.2 ≤ 9 := by
  intro p
  by_cases hpe : p.1 = row ∧ p.2 = col
  · rw [show setCell g row col v p.1 p.2 = v by simp [setCell, hpe.1, hpe.2]]
    exact hv
  · rw [setCell_ne _ _ _ _ _ _ hpe]
    exact hle p

theorem mem_wsAt {x : Nat} {p : Fin 9 × Fin 9} {l : List ((Fin 9 × Fin 9) × Nat)}
    (h : x ∈ wsAt p l) : ∃ e ∈ l, e.1 = p ∧ e.2 = x := by
  simp only [wsAt, List.mem_map, List.mem_filter, decide_eq_true_eq] at h
  obtain ⟨e, ⟨he, hp⟩, hx⟩ := h
  exact ⟨e, he, hp, hx⟩

theorem domRange_commit {st : SState} {row col : Fin 9} {v : Nat}
    (hd : ∀ p : Fin 9 × Fin 9, ∀ x ∈ st.domains p, 1 ≤ x ∧ x ≤ 9) :
    ∀ p : Fin 9 × Fin 9, ∀ x ∈ (commitState st row col v).domains p, 1 ≤ x ∧ x ≤ 9 :=
  fun p x hx => hd p x (fc_subset st.domains row col v p x hx)

theorem domRange_undo {d1 : Doms} {v : Nat}
    {removed : List ((Fin 9 × Fin 9) × Nat)} (hv : 1 ≤ v ∧ v ≤ 9)
    (hlog : ∀ e ∈ removed, e.2 = v)
    (hd1 : ∀ p : Fin 9 × Fin 9, ∀ x ∈ d1 p, 1 ≤ x ∧ x ≤ 9) :
    ∀ p : Fin 9 × Fin 9, ∀ x ∈ undo_forward_check removed d1 p, 1 ≤ x ∧ x ≤ 9 := by
  intro p x hx
  rw [undo_forward_check_apply] at hx
  rcases List.mem_append.mp hx with hx | hx
  · exact hd1 p x hx
  · obtain ⟨e, he, -, hex⟩ := mem_wsAt hx
    rw [← hex, hlog e he]
    exact hv

theorem tryValuesF_cons (E : Finset ((Fin 9 × Fin 9) × (Fin 9 × Fin 9)))
    (recur : SState → Aux → BTRes)
    (hrec : ∀ st aux, ICons E st → ICons E (recur st aux).st ∧
      ((recur st aux).ok = true →
        ∀ p : Fin 9 × Fin 9, (recur st aux).st.puzzle p.1 p.2 ≠ 0))
    (row col : Fin 9) (stSel : SState) :
    ∀ (vals : List Nat) (st : SState) (aux : Aux),
      ICons E st → st.puzzle row col = 0 → (∀ v ∈ vals, 1 ≤ v ∧ v ≤ 9) →
      ICons E (tryValuesF recur row col stSel vals st aux).st ∧
        ((tryValuesF recur row col stSel vals st aux).ok = true →
          ∀ p : Fin 9 × Fin 9,
            (tryValuesF recur row col stSel vals st aux).st.puzzle p.1 p.2 ≠ 0) := by
  intro vals
  induction vals with
  | nil =>
    intro st aux hI _ _
    exact ⟨hI, fun h => absurd h (by simp [tryValuesF])⟩
  | cons v rest ih =>
    intro st aux hI h0 hvals
    have hv19 : 1 ≤ v ∧ v ≤ 9 := hvals v (List.mem_cons_self v rest)
    have hrest : ∀ v' ∈ rest, 1 ≤ v' ∧ v' ≤ 9 :=
      fun v' hv' => hvals v' (List.mem_cons_of_mem v hv')
    by_cases hv : is_valid st.puzzle row col v = true
    · simp only [tryValuesF, if_pos hv]
      have hI2 : ICons E (commitState st row col v) := by
        refine ⟨le9_setCell hI.1 hv19.2, ?_, domRange_commit hI.2.2⟩
        exact consExcept_setCell hI.2.1 hv
      have hlog : ∀ e ∈ (forward_checking st.domains row col v).1, e.2 = v :=
        fun e he => ((fc_spec st.domains row col v).1 e he).1
      by_cases hnw : noWipeout (commitState st row col v) = true
      · rw [if_pos hnw]
        obtain ⟨hIr, hokr⟩ := hrec (commitState st row col v)
          (logAux (commitAux aux) (mkEntry (commitState st row col v) row col v) stSel) hI2
        cases hok : (recur (commitState st row col v)
            (logAux (commitAux aux) (mkEntry (commitState st row col v) row col v) stSel)).ok with
        | true =>
          rw [if_pos rfl]
          exact ⟨hIr, fun _ => hokr hok⟩
        | false =>
          rw [if_neg Bool.false_ne_true]
          apply ih
          · refine ⟨le9_setCell hIr.1 (by omega), ?_, ?_⟩
            · exact consExcept_unassign row col hIr.2.1
            · exact domRange_undo hv19 hlog hIr.2.2
          · exact setCell_self _ row col 0
          · exact hrest
      · rw [if_neg hnw]
        apply ih
        · refine ⟨le9_setCell hI2.1 (by omega), ?_, ?_⟩
          · exact consExcept_unassign row col hI2.2.1
          · exact domRange_undo hv19 hlog hI2.2.2
        · exact setCell_self _ row col 0
        · exact hrest
    · simp only [tryValuesF, if_neg hv]
      exact ih st aux hI h0 hrest

theorem backtrack_cons (E : Finset ((Fin 9 × Fin 9) × (Fin 9 × Fin 9)))
    (clock : Nat → Nat) (limit : Nat) :
    ∀ (fuel : Nat) (st : SState) (aux : Aux), ICons E st →
      ICons E (backtrack clock limit fuel st aux).st ∧
        ((backtrack clock limit fuel st aux).ok = true →
          ∀ p : Fin 9 × Fin 9,
            (backtrack clock limit fuel st aux).st.puzzle p.1 p.2 ≠ 0)
  | 0, st, aux, hI => by
    simp only [backtrack]
    exact ⟨hI, fun h => absurd h (by simp)⟩
  | fuel + 1, st, aux, hI => by
    simp only [backtrack]
    by_cases ht : clock aux.k > limit
    · rw [if_pos ht]
      exact ⟨hI, fun h => absurd h (by simp)⟩
    · rw [if_neg ht]
      by_cases hcomp : gridComplete st.puzzle = true
      · rw [if_pos hcomp]
        exact ⟨hI, fun _ p => gridComplete_eq_true hcomp p.1 p.2⟩
      · rw [if_neg hcomp]
        have hsel : st.puzzle (select_unassigned_variable st).1
            (select_unassigned_variable st).2 = 0 :=
          select_unassigned st (gridComplete_eq_false (Bool.eq_false_iff.mpr hcomp))
        have hvals : ∀ v ∈ sortAsc (st.domains (select_unassigned_variable st)),
            1 ≤ v ∧ v ≤ 9 := by
          intro v hv
          exact hI.2.2 _ v ((mem_sortAsc v _).mp hv)
        exact tryValuesF_cons E _
          (fun st' aux' hI' => backtrack_cons E clock limit fuel st' aux' hI')
          _ _ _ _ st _ hI hsel hvals

/-! ### From complete consistent grids to validity -/

theorem exists_unique_digit (f : Fin 9 → Nat)
    (h1 : ∀ i, 1 ≤ f i ∧ f i ≤ 9) (h2 : ∀ i j, i ≠ j → f i ≠ f j) :
    ∀ d : Fin 9, (∃ i, f i = d.val + 1) ∧
      ∀ i j, f i = d.val + 1 → f j = d.val + 1 → i = j := by
  have hinj : Function.Injective
      (fun i : Fin 9 => (⟨f i - 1, by have ha := (h1 i).1; have hb := (h1 i).2; omega⟩ : Fin 9)) := by
    intro i j hij
    by_contra hne
    apply h2 i j hne
    have hv : f i - 1 = f j - 1 := congrArg Fin.val hij
    have ha := (h1 i).1
    have hb := (h1 j).1
    omega
  have hsurj := Finite.injective_iff_surjective.mp hinj
  intro d
  constructor
  · obtain ⟨i, hi⟩ := hsurj ⟨d.val, d.isLt⟩
    refine ⟨i, ?_⟩
    have hv : f i - 1 = d.val := congrArg Fin.val hi
    have ha := (h1 i).1
    omega
  · intro i j hi hj
    by_contra hne
    exact h2 i j hne (by rw [hi, hj])

theorem valid_of_complete (g : Grid)
    (hle : ∀ p : Fin 9 × Fin 9, g p.1 p.2 ≤ 9)
    (hcomp : ∀ p : Fin 9 × Fin 9, g p.1 p.2 ≠ 0)
    (hcons : consExcept g ∅) : validGrid g := by
  refine ⟨?_, ?_, ?_⟩
  · intro d r
    exact exists_unique_digit (fun c => g r c)
      (fun c => ⟨Nat.one_le_iff_ne_zero.mpr (hcomp (r, c)), hle (r, c)⟩)
      (fun c c' hne heq => by
        have := hcons (r, c) (r, c') (Or.inl rfl)
          (prod_ne_iff.mpr (Or.inr hne)) (hcomp (r, c)) (hcomp (r, c')) heq
        exact absurd this (Finset.not_mem_empty _)) d
  · intro d c
    exact exists_unique_digit (fun r => g r c)
      (fun r => ⟨Nat.one_le_iff_ne_zero.mpr (hcomp (r, c)), hle (r, c)⟩)
      (fun r r' hne heq => by
        have := hcons (r, c) (r', c) (Or.inr (Or.inl rfl))
          (prod_ne_iff.mpr (Or.inl hne)) (hcomp (r, c)) (hcomp (r', c)) heq
        exact absurd this (Finset.not_mem_empty _)) d
  · intro d br bc
    refine exists_unique_digit
      (fun k => g (boxCell br bc k).1 (boxCell br bc k).2)
      (fun k => ⟨Nat.one_le_iff_ne_zero.mpr (hcomp (boxCell br bc k)), hle (boxCell br bc k)⟩)
      (fun k k' hne heq => ?_) d
    have hkk : (boxCell br bc k) ≠ (boxCell br bc k') := by
      intro hc
      apply hne
      have h1 : 3 * br.val + k.val / 3 = 3 * br.val + k'.val / 3 :=
        congrArg (fun p : Fin 9 × Fin 9 => p.1.val) hc
      have h2 : 3 * bc.val + k.val % 3 = 3 * bc.val + k'.val % 3 :=
        congrArg (fun p : Fin 9 × Fin 9 => p.2.val) hc
      have hk := k.isLt
      have hk' := k'.isLt
      apply Fin.ext
      omega
    have hbox : sameBox (boxCell br bc k) (boxCell br bc k') := by
      constructor
      · show (3 * br.val + k.val / 3) / 3 = (3 * br.val + k'.val / 3) / 3
        have hk := k.isLt
        have hk' := k'.isLt
        omega
      · show (3 * bc.val + k.val % 3) / 3 = (3 * bc.val + k'.val % 3) / 3
        have hk := k.isLt
        have hk' := k'.isLt
        omega
    have := hcons (boxCell br bc k) (boxCell br bc k')
      (Or.inr (Or.inr hbox)) hkk (hcomp _) (hcomp _) heq
    exact absurd this (Finset.not_mem_empty _)

theorem ICons_init {E : Finset ((Fin 9 × Fin 9) × (Fin 9 × Fin 9))} (g0 : Grid)
    (hwf : wellFormed g0) (hcons : consExcept g0 E) : ICons E (initState g0) := by
  refine ⟨hwf, hcons, ?_⟩
  intro p x hx
  have hx' : x ∈ (if g0 p.1 p.2 = 0 then [1, 2, 3, 4, 5, 6, 7, 8, 9]
      else [g0 p.1 p.2]) := hx
  by_cases h0 : g0 p.1 p.2 = 0
  · rw [if_pos h0] at hx'
    simp only [List.mem_cons, List.not_mem_nil, or_false] at hx'
    rcases hx' with h | h | h | h | h | h | h | h | h <;> omega
  · rw [if_neg h0] at hx'
    rw [List.mem_singleton.mp hx']
    exact ⟨Nat.one_le_iff_ne_zero.mpr h0, hwf p⟩

/-- C1 amended -- Validity holds for every well-formed input whose fixed
digits are mutually consistent (no two equal nonzero digits share a row,
column, or box): if `solve` returns a grid, that grid has every row,
column, and 3x3 box containing each digit 1..9 exactly once. The
unconditional form of the claim is false (see the counterexample): the
completeness check accepts an already-filled contradictory grid. -/
theorem claim_C1_amended (clock : Nat → Nat) (limit fuel : Nat) (g0 : Grid)
    (hwf : wellFormed g0) (hcons : consExcept g0 ∅) (g : Grid)
    (h : solve clock limit fuel g0 = some g) : validGrid g := by
  obtain ⟨hI, hok⟩ := backtrack_cons ∅ clock limit fuel (initState g0) aux0
    (ICons_init g0 hwf hcons)
  simp only [solve] at h
  by_cases hok2 : (solveR clock limit fuel g0).ok = true
  · rw [if_pos hok2] at h
    rw [← Option.some_inj.mp h]
    exact valid_of_complete _ hI.1 (hok hok2) hI.2.1
  · rw [if_neg hok2] at h
    exact absurd h (by simp)

theorem claim_C1_witness :
    wellFormed pat1 ∧ consExcept pat1 ∅ ∧
      validGrid ((solveR clockZero 3600 5 pat1).st.puzzle) :=
  ⟨by decide, by decide,
    claim_C1_amended clockZero 3600 5 pat1 (by decide) (by decide) _ rfl⟩

/-! ### The duplicate-pair input admits no complete extension -/

theorem mem_dupPairs {pq : (Fin 9 × Fin 9) × (Fin 9 × Fin 9)} :
    pq ∈ dupPairs ↔
      pq = (((0 : Fin 9), (0 : Fin 9)), ((0 : Fin 9), (1 : Fin 9))) ∨
      pq = (((0 : Fin 9), (1 : Fin 9)), ((0 : Fin 9), (0 : Fin 9))) := by
  simp [dupPairs]

theorem exists_cell_with (f : Fin 9 → Nat)
    (h1 : ∀ i, 1 ≤ f i ∧ f i ≤ 9) (h2 : ∀ i j, i ≠ j → f i ≠ f j)
    (w : Nat) (hw : 1 ≤ w ∧ w ≤ 9) : ∃ i, f i = w := by
  have hw1 : w - 1 < 9 := by omega
  obtain ⟨i, hi⟩ := (exists_unique_digit f h1 h2 ⟨w - 1, hw1⟩).1
  have hv : (⟨w - 1, hw1⟩ : Fin 9).val = w - 1 := rfl
  rw [hv] at hi
  exact ⟨i, by omega⟩

theorem no_complete_duprow (g : Grid)
    (hle : ∀ p : Fin 9 × Fin 9, g p.1 p.2 ≤ 9)
    (hcomp : ∀ p : Fin 9 × Fin 9, g p.1 p.2 ≠ 0)
    (hcons : consExcept g dupPairs)
    (h00 : g 0 0 = 5) (h01 : g 0 1 = 5) : False := by
  have hcolinj : ∀ r r' c : Fin 9, r ≠ r' → g r c = 5 → g r' c = 5 → False := by
    intro r r' c hne h5 h5'
    have hz : g r c ≠ 0 := by rw [h5]; simp
    have hz' : g r' c ≠ 0 := by rw [h5']; simp
    have hmem := hcons (r, c) (r', c) (Or.inr (Or.inl rfl))
      (prod_ne_iff.mpr (Or.inl hne)) hz hz' (h5.trans h5'.symm)
    rcases mem_dupPairs.mp hmem with h | h
    · have hc0 : c = (0 : Fin 9) :=
        congrArg (fun x : (Fin 9 × Fin 9) × (Fin 9 × Fin 9) => x.1.2) h
      have hc1 : c = (1 : Fin 9) :=
        congrArg (fun x : (Fin 9 × Fin 9) × (Fin 9 × Fin 9) => x.2.2) h
      rw [hc0] at hc1
      exact absurd hc1 (by decide)
    · have hc0 : c = (1 : Fin 9) :=
        congrArg (fun x : (Fin 9 × Fin 9) × (Fin 9 × Fin 9) => x.1.2) h
      have hc1 : c = (0 : Fin 9) :=
        congrArg (fun x : (Fin 9 × Fin 9) × (Fin 9 × Fin 9) => x.2.2) h
      rw [hc0] at hc1
      exact absurd hc1 (by decide)
  have hrow5 : ∀ r : Fin 9, r ≠ 0 → ∃ c, g r c = 5 := by
    intro r hr
    refine exists_cell_with (fun c => g r c)
      (fun c => ⟨Nat.one_le_iff_ne_zero.mpr (hcomp (r, c)), hle (r, c)⟩)
      (fun c c' hne heq => ?_) 5 (by omega)
    have hmem := hcons (r, c) (r, c') (Or.inl rfl)
      (prod_ne_iff.mpr (Or.inr hne)) (hcomp (r, c)) (hcomp (r, c')) heq
    rcases mem_dupPairs.mp hmem with h | h <;>
    · have hr0 : r = (0 : Fin 9) :=
        congrArg (fun x : (Fin 9 × Fin 9) × (Fin 9 × Fin 9) => x.1.1) h
      exact hr hr0
  classical
  let cfun : Fin 9 → Fin 9 := fun r => if h : r = 0 then 0 else (hrow5 r h).choose
  have hcf : ∀ (r : Fin 9) (h : r ≠ 0), g r (cfun r) = 5 := by
    intro r h
    show g r (if hh : r = 0 then 0 else (hrow5 r hh).choose) = 5
    rw [dif_neg h]
    exact (hrow5 r h).choose_spec
  have hinjOn : Set.InjOn cfun (Finset.univ.erase (0 : Fin 9)) := by
    intro r hr r' hr' heq
    have hr0 : r ≠ 0 := (Finset.mem_erase.mp (Finset.mem_coe.mp hr)).1
    have hr0' : r' ≠ 0 := (Finset.mem_erase.mp (Finset.mem_coe.mp hr')).1
    by_contra hne
    apply hcolinj r r' (cfun r) hne (hcf r hr0)
    rw [heq]
    exact hcf r' hr0'
  have hcard : ((Finset.univ.erase (0 : Fin 9)).image cfun).card = 8 := by
    rw [Finset.card_image_of_injOn hinjOn]
    decide
  have hmem2 : (0 : Fin 9) ∈ (Finset.univ.erase (0 : Fin 9)).image cfun ∨
      (1 : Fin 9) ∈ (Finset.univ.erase (0 : Fin 9)).image cfun := by
    by_contra hc
    push_neg at hc
    have hsub : (Finset.univ.erase (0 : Fin 9)).image cfun ⊆
        Finset.univ \ {(0 : Fin 9), (1 : Fin 9)} := by
      intro s hs
      rw [Finset.mem_sdiff]
      refine ⟨Finset.mem_univ s, ?_⟩
      intro hins
      rcases Finset.mem_insert.mp hins with h | h
      · exact hc.1 (by rwa [h] at hs)
      · exact hc.2 (by rwa [Finset.mem_singleton.mp h] at hs)
    have hle2 := Finset.card_le_card hsub
    rw [hcard] at hle2
    have : (Finset.univ \ {(0 : Fin 9), (1 : Fin 9)}).card = 7 := by decide
    omega
  rcases hmem2 with hj | hj
  · obtain ⟨r, hr, hcr⟩ := Finset.mem_image.mp hj
    have hr0 : r ≠ 0 := (Finset.mem_erase.mp hr).1
    apply hcolinj r 0 0 hr0
    · rw [← hcr]
      exact hcf r hr0
    · exact h00
  · obtain ⟨r, hr, hcr⟩ := Finset.mem_image.mp hj
    have hr0 : r ≠ 0 := (Finset.mem_erase.mp hr).1
    apply hcolinj r 0 1 hr0
    · rw [← hcr]
      exact hcf r hr0
    · exact h01

/-- C6 amended -- on the spec's example input (cells (0,0) and (0,1) both
5, all other cells empty), `solve` returns `Unsolved` for every time
budget, every clock, and every fuel: no complete grid reachable by the
search can extend the duplicated pair, so the search always exhausts. The
universal form of the claim over all grids with a duplicated row pair is
false (see counterexample): an already-complete grid with a duplicate is
returned as solved. -/
theorem claim_C6_amended (clock : Nat → Nat) (limit fuel : Nat) :
    solve clock limit fuel dupGrid = none := by
  simp only [solve]
  by_cases hok : (solveR clock limit fuel dupGrid).ok = true
  · exfalso
    obtain ⟨hI, hcomp⟩ := backtrack_cons dupPairs clock limit fuel
      (initState dupGrid) aux0 (ICons_init dupGrid (by decide) (by decide))
    have hfid : Fid dupGrid (solveR clock limit fuel dupGrid).st :=
      backtrack_fid dupGrid clock limit fuel (initState dupGrid) aux0
        (fun p _ => rfl)
    apply no_complete_duprow ((solveR clock limit fuel dupGrid).st.puzzle)
      hI.1 (hcomp hok) hI.2.1
    · exact (hfid ((0 : Fin 9), (0 : Fin 9)) (by decide)).trans (by decide)
    · exact (hfid ((0 : Fin 9), (1 : Fin 9)) (by decide)).trans (by decide)
  · rw [if_neg hok]

/-! ### Behaviour after the deadline is exceeded -/

theorem commitAux_fields (aux : Aux) :
    (commitAux aux).k = aux.k ∧ (commitAux aux).timedOut = aux.timedOut ∧
    (commitAux aux).selectsAfterTimeout = aux.selectsAfterTimeout := by
  unfold commitAux
  split <;> exact ⟨rfl, rfl, rfl⟩

theorem logAux_fields (aux : Aux) (entry : LogEntry) (stSel : SState) :
    (logAux aux entry stSel).k = aux.k ∧
    (logAux aux entry stSel).timedOut = aux.timedOut ∧
    (logAux aux entry stSel).selectsAfterTimeout = aux.selectsAfterTimeout := by
  unfold logAux
  split <;> exact ⟨rfl, rfl, rfl⟩

/-- The timing invariant: the `timedOut` flag is set only when some
already-performed deadline check actually observed the limit exceeded. -/
def TInv (clock : Nat → Nat) (limit : Nat) (aux : Aux) : Prop :=
  aux.timedOut = true → ∃ j, j < aux.k ∧ clock j > limit

theorem tryValuesF_timed (clock : Nat → Nat) (limit : Nat)
    (recur : SState → Aux → BTRes)
    (hrec : ∀ st aux, TInv clock limit aux →
      TInv clock limit (recur st aux).aux ∧ aux.k ≤ (recur st aux).aux.k ∧
      (recur st aux).aux.selectsAfterTimeout = aux.selectsAfterTimeout)
    (row col : Fin 9) (stSel : SState) :
    ∀ (vals : List Nat) (st : SState) (aux : Aux), TInv clock limit aux →
      TInv clock limit (tryValuesF recur row col stSel vals st aux).aux ∧
      aux.k ≤ (tryValuesF recur row col stSel vals st aux).aux.k ∧
      (tryValuesF recur row col stSel vals st aux).aux.selectsAfterTimeout =
        aux.selectsAfterTimeout := by
  intro vals
  induction vals with
  | nil =>
    intro st aux hT
    exact ⟨hT, Nat.le_refl _, rfl⟩
  | cons v rest ih =>
    intro st aux hT
    by_cases hv : is_valid st.puzzle row col v = true
    · simp only [tryValuesF, if_pos hv]
      have haux2 : ∀ ent ssel,
          (logAux (commitAux aux) ent ssel).k = aux.k ∧
          (logAux (commitAux aux) ent ssel).timedOut = aux.timedOut ∧
          (logAux (commitAux aux) ent ssel).selectsAfterTimeout =
            aux.selectsAfterTimeout := by
        intro ent ssel
        obtain ⟨h1, h2, h3⟩ := logAux_fields (commitAux aux) ent ssel
        obtain ⟨h4, h5, h6⟩ := commitAux_fields aux
        exact ⟨h1.trans h4, h2.trans h5, h3.trans h6⟩
      obtain ⟨hk2, hto2, hs2⟩ := haux2 (mkEntry (commitState st row col v) row col v) stSel
      have hT2 : TInv clock limit (logAux (commitAux aux)
          (mkEntry (commitState st row col v) row col v) stSel) := by
        intro h
        rw [hto2] at h
        obtain ⟨j, hj, hcl⟩ := hT h
        exact ⟨j, by rw [hk2]; exact hj, hcl⟩
      by_cases hnw : noWipeout (commitState st row col v) = true
      · rw [if_pos hnw]
        obtain ⟨hTr, hkr, hsr⟩ := hrec (commitState st row col v) _ hT2
        cases hok : (recur (commitState st row col v)
            (logAux (commitAux aux) (mkEntry (commitState st row col v) row col v) stSel)).ok with
        | true =>
          rw [if_pos rfl]
          refine ⟨hTr, ?_, ?_⟩
          · rw [← hk2]
            exact hkr
          · rw [hsr, hs2]
        | false =>
          rw [if_neg Bool.false_ne_true]
          obtain ⟨hTr2, hkr2, hsr2⟩ := ih _ _ hTr
          refine ⟨hTr2, ?_, ?_⟩
          · calc aux.k = _ := hk2.symm
              _ ≤ _ := hkr
              _ ≤ _ := hkr2
          · rw [hsr2, hsr, hs2]
      · rw [if_neg hnw]
        obtain ⟨hTr2, hkr2, hsr2⟩ := ih _ _ hT2
        refine ⟨hTr2, ?_, ?_⟩
        · rw [← hk2]
          exact hkr2
        · rw [hsr2, hs2]
    · simp only [tryValuesF, if_neg hv]
      exact ih st aux hT

theorem backtrack_timed (clock : Nat → Nat) (limit : Nat)
    (hmono : Monotone clock) :
    ∀ (fuel : Nat) (st : SState) (aux : Aux), TInv clock limit aux →
      TInv clock limit (backtrack clock limit fuel st aux).aux ∧
      aux.k ≤ (backtrack clock limit fuel st aux).aux.k ∧
      (backtrack clock limit fuel st aux).aux.selectsAfterTimeout =
        aux.selectsAfterTimeout
  | 0, _, aux, hT => ⟨hT, Nat.le_refl _, rfl⟩
  | fuel + 1, st, aux, hT => by
    simp only [backtrack]
    by_cases ht : clock aux.k > limit
    · rw [if_pos ht]
      exact ⟨fun _ => ⟨aux.k, Nat.lt_succ_self _, ht⟩, Nat.le_succ _, rfl⟩
    · rw [if_neg ht]
      have hto : aux.timedOut = false := by
        by_contra hc
        rw [Bool.not_eq_false] at hc
        obtain ⟨j, hj, hcl⟩ := hT hc
        exact ht (Nat.lt_of_lt_of_le hcl (hmono (Nat.le_of_lt hj)))
      have hT1 : TInv clock limit { aux with k := aux.k + 1 } := by
        intro h
        have h' : aux.timedOut = true := h
        rw [h'] at hto
        exact absurd hto (by simp)
      by_cases hcomp : gridComplete st.puzzle = true
      · rw [if_pos hcomp]
        exact ⟨hT1, Nat.le_succ _, rfl⟩
      · rw [if_neg hcomp]
        have hcnot : ¬(({ aux with k := aux.k + 1 } : Aux).timedOut = true) := by
          intro h
          have h' : aux.timedOut = true := h
          rw [h'] at hto
          exact absurd hto (by simp)
        rw [if_neg hcnot]
        obtain ⟨hTr, hkr, hsr⟩ := tryValuesF_timed clock limit _
          (fun st' aux' hT' => backtrack_timed clock limit hmono fuel st' aux' hT')
          (select_unassigned_variable st).1 (select_unassigned_variable st).2 st
          (sortAsc (st.domains (select_unassigned_variable st)))
          st { aux with k := aux.k + 1 } hT1
        exact ⟨hTr, Nat.le_trans (Nat.le_succ aux.k) hkr, hsr⟩

/-- C8 counterexample -- after the deadline has been exceeded, further
candidate values are still committed: on the two-blank grid with a clock
that trips the 10-unit limit at the third deadline check, the unwinding
search performs another commit (grid assignment plus `forward_checking`)
for a sibling candidate value after a deadline check has already reported
the limit exceeded (the instrumentation counter is 1, not 0). The clock
is monotone, so this is a legitimate timeline. -/
theorem claim_C8_counterexample :
    Monotone clockTrip ∧
    (solveR clockTrip 10 10 twoBlank).aux.commitsAfterTimeout = 1 := by
  constructor
  · intro a b hab
    simp only [clockTrip]
    split <;> split <;> omega
  · decide

/-- C8 amended -- once the deadline has been exceeded, the search never
descends again: with a monotone clock, every recursive entry after the
first exceeded check returns at its own deadline check, so no cell
selection is ever performed after a timeout (the selection counter stays
0); however, sibling candidate values pending in enclosing frames may
still be committed and immediately rolled back (see the counterexample). -/
theorem claim_C8_amended (clock : Nat → Nat) (limit fuel : Nat) (g : Grid)
    (hmono : Monotone clock) :
    (solveR clock limit fuel g).aux.selectsAfterTimeout = 0 := by
  have h := backtrack_timed clock limit hmono fuel (initState g) aux0
    (by intro hc; exact absurd (show false = true from hc) (by simp))
  exact h.2.2

theorem claim_C8_witness :
    Monotone clockZero ∧
      (solveR clockZero 3600 5 oneBlank).aux.selectsAfterTimeout = 0 := by
  have hm : Monotone clockZero := fun _ _ _ => Nat.le_refl 0
  exact ⟨hm, claim_C8_amended clockZero 3600 5 oneBlank hm⟩

/-! ### Restoration, duplicate-freeness, and the assignment log -/

theorem domsOK_init (g : Grid) : domsOK (initState g) := by
  intro p
  constructor
  · show (if g p.1 p.2 = 0 then [1, 2, 3, 4, 5, 6, 7, 8, 9] else [g p.1 p.2]).Nodup
    by_cases h0 : g p.1 p.2 = 0
    · rw [if_pos h0]
      decide
    · rw [if_neg h0]
      simp
  · intro x hx
    have hx' : x ∈ (if g p.1 p.2 = 0 then [1, 2, 3, 4, 5, 6, 7, 8, 9]
        else [g p.1 p.2]) := hx
    by_cases h0 : g p.1 p.2 = 0
    · rw [if_pos h0] at hx'
      simp only [List.mem_cons, List.not_mem_nil, or_false] at hx'
      rcases hx' with h | h | h | h | h | h | h | h | h <;> omega
    · rw [if_neg h0] at hx'
      rw [List.mem_singleton.mp hx']
      exact Nat.one_le_iff_ne_zero.mpr h0

theorem domsOK_commit {st : SState} (row col : Fin 9) (v : Nat)
    (h : domsOK st) : domsOK (commitState st row col v) := by
  intro p
  exact ⟨fc_nodup st.domains row col v (fun q => (h q).1) p,
    fun x hx => (h p).2 x (fc_subset st.domains row col v p x hx)⟩

theorem domsOK_of_perm {st st' : SState} (h : domsOK st)
    (hp : ∀ p, (st'.domains p).Perm (st.domains p)) : domsOK st' := by
  intro p
  exact ⟨((hp p).nodup_iff).mpr (h p).1,
    fun x hx => (h p).2 x ((hp p).mem_iff.mp hx)⟩

theorem commitAux_log (aux : Aux) :
    (commitAux aux).logPairs = aux.logPairs ∧
    (commitAux aux).assignments = aux.assignments := by
  unfold commitAux
  split <;> exact ⟨rfl, rfl⟩

theorem logAux_spec (aux : Aux) (entry : LogEntry) (stSel : SState) :
    ∃ L0, (logAux aux entry stSel).logPairs = aux.logPairs ++ L0 ∧
      (logAux aux entry stSel).assignments = aux.assignments ++ L0.map Prod.fst ∧
      ∀ es ∈ L0, es = (entry, stSel) := by
  unfold logAux
  split
  · refine ⟨[(entry, stSel)], rfl, rfl, ?_⟩
    intro es hes
    simpa using hes
  · refine ⟨[], by simp, by simp, ?_⟩
    intro es hes
    exact absurd hes (List.not_mem_nil es)

/-- The conclusions of the main induction, relative to the entry state
and bookkeeping: the final domains are duplicate-free with values at
least 1, so are all traced states; on failure the grid is restored
exactly and every domain is restored up to permutation; and the log grows
only by pairs satisfying `GoodPair`, with `assignments` mirroring the
ghost pairs. -/
def MainRes (r : BTRes) (st : SState) (aux : Aux) : Prop :=
  domsOK r.st ∧
  (∀ ts ∈ r.trace, domsOK ts.2) ∧
  (r.ok = false → r.st.puzzle = st.puzzle ∧
    ∀ p, (r.st.domains p).Perm (st.domains p)) ∧
  (∃ L, r.aux.logPairs = aux.logPairs ++ L ∧
    r.aux.assignments = aux.assignments ++ L.map Prod.fst ∧
    ∀ es ∈ L, GoodPair es)

theorem tryValuesF_main (recur : SState → Aux → BTRes)
    (hrec : ∀ st aux, domsOK st → MainRes (recur st aux) st aux)
    (row col : Fin 9) (stSel : SState) (hOKsel : domsOK stSel)
    (hz : stSel.puzzle row col = 0) :
    ∀ (vals : List Nat) (st : SState) (aux : Aux),
      st.puzzle = stSel.puzzle →
      (∀ p, (st.domains p).Perm (stSel.domains p)) →
      (∀ v ∈ vals, 1 ≤ v) →
      MainRes (tryValuesF recur row col stSel vals st aux) st aux := by
  intro vals
  induction vals with
  | nil =>
    intro st aux hpz hdp _
    refine ⟨domsOK_of_perm hOKsel hdp, ?_, fun _ => ⟨rfl, fun p => List.Perm.refl _⟩, ?_⟩
    · intro ts hts
      exact absurd hts (List.not_mem_nil ts)
    · exact ⟨[], by simp [tryValuesF], by simp [tryValuesF], fun es hes => absurd hes (List.not_mem_nil es)⟩
  | cons v rest ih =>
    intro st aux hpz hdp hv
    have hOKst : domsOK st := domsOK_of_perm hOKsel hdp
    have hznow : st.puzzle row col = 0 := by rw [hpz]; exact hz
    have hv1 : 1 ≤ v := hv v (List.mem_cons_self v rest)
    have hvrest : ∀ v' ∈ rest, 1 ≤ v' := fun v' h => hv v' (List.mem_cons_of_mem v h)
    by_cases hvalid : is_valid st.puzzle row col v = true
    · simp only [tryValuesF, if_pos hvalid]
      have hOK2 : domsOK (commitState st row col v) := domsOK_commit row col v hOKst
      have hGood : GoodPair (mkEntry (commitState st row col v) row col v, stSel) := by
        constructor
        · show ((commitState st row col v).domains (row, col)).length =
            (stSel.domains (row, col)).length
          rw [show (commitState st row col v).domains (row, col) =
            st.domains (row, col) from fc_own_domain st.domains row col v]
          exact (hdp (row, col)).length_eq
        · show degreeOf (commitState st row col v).puzzle row col =
            degreeOf stSel.puzzle row col - 2
          show degreeOf (setCell st.puzzle row col v) row col =
            degreeOf stSel.puzzle row col - 2
          rw [hpz]
          exact degree_after_assign stSel.puzzle row col v hz (by omega)
      obtain ⟨L0, hl0, ha0, hes0⟩ := logAux_spec (commitAux aux)
        (mkEntry (commitState st row col v) row col v) stSel
      have hl0' : (logAux (commitAux aux) (mkEntry (commitState st row col v) row col v)
          stSel).logPairs = aux.logPairs ++ L0 := by
        rw [hl0, (commitAux_log aux).1]
      have ha0' : (logAux (commitAux aux) (mkEntry (commitState st row col v) row col v)
          stSel).assignments = aux.assignments ++ L0.map Prod.fst := by
        rw [ha0, (commitAux_log aux).2]
      have hes0' : ∀ es ∈ L0, GoodPair es := by
        intro es hes
        rw [hes0 es hes]
        exact hGood
      have hlog : ∀ e ∈ (forward_checking st.domains row col v).1, e.2 = v :=
        fun e he => ((fc_spec st.domains row col v).1 e he).1
      by_cases hnw : noWipeout (commitState st row col v) = true
      · rw [if_pos hnw]
        obtain ⟨hA1, hB1, hC1, hD1⟩ := hrec (commitState st row col v)
          (logAux (commitAux aux) (mkEntry (commitState st row col v) row col v) stSel) hOK2
        obtain ⟨L1, hl1, ha1, hes1⟩ := hD1
        cases hok : (recur (commitState st row col v)
            (logAux (commitAux aux) (mkEntry (commitState st row col v) row col v) stSel)).ok with
        | true =>
          rw [if_pos rfl]
          refine ⟨hA1, ?_, ?_, ?_⟩
          · intro ts hts
            rcases List.mem_cons.mp hts with h | h
            · rw [h]
              exact hOK2
            · exact hB1 ts h
          · intro hc
            exact absurd hc (by simp)
          · refine ⟨L0 ++ L1, ?_, ?_, ?_⟩
            · rw [hl1, hl0']
              simp [List.append_assoc]
            · rw [ha1, ha0']
              simp [List.map_append, List.append_assoc]
            · intro es hes
              rcases List.mem_append.mp hes with h | h
              · exact hes0' es h
              · exact hes1 es h
        | false =>
          rw [if_neg Bool.false_ne_true]
          obtain ⟨hpz1, hdp1⟩ := hC1 hok
          have hpz4 : (undoState (recur (commitState st row col v)
              (logAux (commitAux aux) (mkEntry (commitState st row col v) row col v)
                stSel)).st row col
              (forward_checking st.domains row col v).1).puzzle = st.puzzle := by
            show setCell (recur (commitState st row col v)
              (logAux (commitAux aux) (mkEntry (commitState st row col v) row col v)
                stSel)).st.puzzle row col 0 = st.puzzle
            rw [hpz1]
            show setCell (setCell st.puzzle row col v) row col 0 = st.puzzle
            exact setCell_cancel st.puzzle row col v hznow
          have hdp4 : ∀ p, ((undoState (recur (commitState st row col v)
              (logAux (commitAux aux) (mkEntry (commitState st row col v) row col v)
                stSel)).st row col
              (forward_checking st.domains row col v).1).domains p).Perm
              (st.domains p) := by
            intro p
            exact fc_restore st.domains _ row col v hdp1 p
          obtain ⟨hA2, hB2, hC2, hD2⟩ := ih _ _
            (by rw [hpz4, hpz]) (fun p => (hdp4 p).trans (hdp p)) hvrest
          obtain ⟨L2, hl2, ha2, hes2⟩ := hD2
          refine ⟨hA2, ?_, ?_, ?_⟩
          · intro ts hts
            rcases List.mem_cons.mp hts with h | h
            · rw [h]
              exact hOK2
            · rcases List.mem_append.mp h with h2 | h2
              · exact hB1 ts h2
              · rcases List.mem_cons.mp h2 with h3 | h3
                · rw [h3]
                  exact domsOK_of_perm hOKst hdp4
                · exact hB2 ts h3
          · intro hc
            obtain ⟨hp2, hd2⟩ := hC2 hc
            refine ⟨by rw [hp2, hpz4], ?_⟩
            intro p
            exact (hd2 p).trans (hdp4 p)
          · refine ⟨L0 ++ L1 ++ L2, ?_, ?_, ?_⟩
            · rw [hl2, hl1, hl0']
              simp [List.append_assoc]
            · rw [ha2, ha1, ha0']
              simp [List.map_append, List.append_assoc]
            · intro es hes
              rcases List.mem_append.mp hes with h | h
              · rcases List.mem_append.mp h with h2 | h2
                · exact hes0' es h2
                · exact hes1 es h2
              · exact hes2 es h
      · rw [if_neg hnw]
        have hpz4 : (undoState (commitState st row col v) row col
            (forward_checking st.domains row col v).1).puzzle = st.puzzle := by
          show setCell (setCell st.puzzle row col v) row col 0 = st.puzzle
          exact setCell_cancel st.puzzle row col v hznow
        have hdp4 : ∀ p, ((undoState (commitState st row col v) row col
            (forward_checking st.domains row col v).1).domains p).Perm
            (st.domains p) := by
          intro p
          exact fc_restore st.domains _ row col v (fun q => List.Perm.refl _) p
        obtain ⟨hA2, hB2, hC2, hD2⟩ := ih _ _
          (by rw [hpz4, hpz]) (fun p => (hdp4 p).trans (hdp p)) hvrest
        obtain ⟨L2, hl2, ha2, hes2⟩ := hD2
        refine ⟨hA2, ?_, ?_, ?_⟩
        · intro ts hts
          rcases List.mem_cons.mp hts with h | h
          · rw [h]
            exact hOK2
          · rcases List.mem_cons.mp h with h2 | h2
            · rw [h2]
              exact domsOK_of_perm hOKst hdp4
            · exact hB2 ts h2
        · intro hc
          obtain ⟨hp2, hd2⟩ := hC2 hc
          refine ⟨by rw [hp2, hpz4], ?_⟩
          intro p
          exact (hd2 p).trans (hdp4 p)
        · refine ⟨L0 ++ L2, ?_, ?_, ?_⟩
          · rw [hl2, hl0']
            simp [List.append_assoc]
          · rw [ha2, ha0']
            simp [List.map_append, List.append_assoc]
          · intro es hes
            rcases List.mem_append.mp hes with h | h
            · exact hes0' es h
            · exact hes2 es h
    · simp only [tryValuesF, if_neg hvalid]
      exact ih st aux hpz hdp hvrest

theorem backtrack_main (clock : Nat → Nat) (limit : Nat) :
    ∀ (fuel : Nat) (st : SState) (aux : Aux), domsOK st →
      MainRes (backtrack clock limit fuel st aux) st aux
  | 0, st, aux, hOK => by
    simp only [backtrack]
    exact ⟨hOK, fun ts hts => absurd hts (List.not_mem_nil ts),
      fun _ => ⟨rfl, fun p => List.Perm.refl _⟩,
      ⟨[], by simp, by simp, fun es hes => absurd hes (List.not_mem_nil es)⟩⟩
  | fuel + 1, st, aux, hOK => by
    simp only [backtrack]
    by_cases ht : clock aux.k > limit
    · rw [if_pos ht]
      refine ⟨hOK, ?_, fun _ => ⟨rfl, fun p => List.Perm.refl _⟩,
        ⟨[], by simp, by simp, fun es hes => absurd hes (List.not_mem_nil es)⟩⟩
      intro ts hts
      rw [List.mem_singleton.mp hts]
      exact hOK
    · rw [if_neg ht]
      by_cases hcomp : gridComplete st.puzzle = true
      · rw [if_pos hcomp]
        refine ⟨hOK, ?_, fun hc => absurd hc (by simp),
          ⟨[], by simp, by simp, fun es hes => absurd hes (List.not_mem_nil es)⟩⟩
        intro ts hts
        rw [List.mem_singleton.mp hts]
        exact hOK
      · rw [if_neg hcomp]
        have hsel : st.puzzle (select_unassigned_variable st).1
            (select_unassigned_variable st).2 = 0 :=
          select_unassigned st (gridComplete_eq_false (Bool.eq_false_iff.mpr hcomp))
        have hv : ∀ v ∈ sortAsc (st.domains (select_unassigned_variable st)), 1 ≤ v :=
          fun v hvm => (hOK (select_unassigned_variable st)).2 v ((mem_sortAsc v _).mp hvm)
        have haux2 : ∀ a : Aux,
            (if a.timedOut = true then
              { a with selectsAfterTimeout := a.selectsAfterTimeout + 1 }
            else a).logPairs = a.logPairs ∧
            (if a.timedOut = true then
              { a with selectsAfterTimeout := a.selectsAfterTimeout + 1 }
            else a).assignments = a.assignments := by
          intro a
          split <;> exact ⟨rfl, rfl⟩
        obtain ⟨hA, hB, hC, hD⟩ := tryValuesF_main (backtrack clock limit fuel)
          (fun st' aux' hOK' => backtrack_main clock limit fuel st' aux' hOK')
          (select_unassigned_variable st).1 (select_unassigned_variable st).2 st hOK hsel
          (sortAsc (st.domains (select_unassigned_variable st))) st
          (if ({ aux with k := aux.k + 1 } : Aux).timedOut = true then
            { { aux with k := aux.k + 1 } with selectsAfterTimeout :=
              ({ aux with k := aux.k + 1 } : Aux).selectsAfterTimeout + 1 }
          else { aux with k := aux.k + 1 })
          rfl (fun p => List.Perm.refl _) hv
        obtain ⟨L, hl, ha, hes⟩ := hD
        refine ⟨hA, ?_, hC, ⟨L, ?_, ?_, hes⟩⟩
        · intro ts hts
          rcases List.mem_cons.mp hts with h | h
          · rw [h]
            exact hOK
          · exact hB ts h
        · rw [hl, (haux2 { aux with k := aux.k + 1 }).1]
        · rw [ha, (haux2 { aux with k := aux.k + 1 }).2]

/-- C10 -- no cell's domain ever contains the same value twice during a
`solve` call: the initial domains are duplicate-free, `forward_checking`
removes a value only when present, and because commits and undos nest in
strict stack order the unconditional append of `undo_forward_check` never
re-inserts a value already in that cell's domain. Stated over the final
state and every traced intermediate state (each `backtrack` entry, each
commit, each undo) of any run. -/
theorem claim_C10_nodup (clock : Nat → Nat) (limit fuel : Nat) (g : Grid) :
    (∀ p : Fin 9 × Fin 9, ((solveR clock limit fuel g).st.domains p).Nodup) ∧
    ∀ ts ∈ (solveR clock limit fuel g).trace, ∀ p : Fin 9 × Fin 9,
      (ts.2.domains p).Nodup := by
  obtain ⟨hA, hB, -, -⟩ := backtrack_main clock limit fuel (initState g) aux0
    (domsOK_init g)
  exact ⟨fun p => (hA p).1, fun ts hts p => (hB ts hts p).1⟩

theorem claim_C10_witness :
    (((solveR clockZero 3600 5 oneBlank).st.domains ((0 : Fin 9), (0 : Fin 9))).Nodup) ∧
    (((Snap.entry, initState oneBlank) : Snap × SState).2.domains
      ((0 : Fin 9), (1 : Fin 9))).Nodup :=
  ⟨(claim_C10_nodup clockZero 3600 5 oneBlank).1 (0, 0),
   (claim_C10_nodup clockZero 3600 5 oneBlank).2 (Snap.entry, initState oneBlank)
     (List.mem_cons_self _ _) (0, 1)⟩

/-- C9 amended -- for every assignment decision logged during a `solve`
call (the code logs the first 4), the recorded domain size equals the
chosen cell's domain size at the moment the cell was selected, but the
recorded degree equals the selection-time degree minus 2, not the
selection-time degree itself: the code recomputes the degree after the
cell has been assigned, which removes the cell from both unassigned
counts. The `logPairs` ghost pairs each logged entry with the state at
its selection moment, and `assignments` is exactly their first
components. -/
theorem claim_C9_amended (clock : Nat → Nat) (limit fuel : Nat) (g : Grid) :
    (∀ es ∈ (solveR clock limit fuel g).aux.logPairs,
      es.1.domSize = (es.2.domains (es.1.row, es.1.col)).length ∧
      es.1.degree = degreeOf es.2.puzzle es.1.row es.1.col - 2) ∧
    (solveR clock limit fuel g).aux.assignments =
      ((solveR clock limit fuel g).aux.logPairs).map Prod.fst := by
  obtain ⟨-, -, -, hD⟩ := backtrack_main clock limit fuel (initState g) aux0
    (domsOK_init g)
  obtain ⟨L, hl, ha, hes⟩ := hD
  have hsr : solveR clock limit fuel g = backtrack clock limit fuel (initState g) aux0 := rfl
  have h0 : aux0.logPairs = ([] : List (LogEntry × SState)) := rfl
  have h1 : aux0.assignments = ([] : List LogEntry) := rfl
  constructor
  · intro es hesm
    rw [hsr, hl, h0, List.nil_append] at hesm
    exact hes es hesm
  · rw [hsr, ha, hl, h0, h1]
    simp

/-- C9 counterexample -- the claim as stated fails: in the run on
`twoBlank` the first logged entry's recorded degree differs from the
degree of the chosen cell at its selection moment (it is that degree
minus 2). -/
theorem claim_C9_counterexample :
    ∃ es ∈ (solveR clockZero 3600 10 twoBlank).aux.logPairs,
      es.1.degree ≠ degreeOf es.2.puzzle es.1.row es.1.col := by decide

theorem claim_C9_witness :
    (solveR clockZero 3600 10 twoBlank).aux.assignments =
      ((solveR clockZero 3600 10 twoBlank).aux.logPairs).map Prod.fst :=
  (claim_C9_amended clockZero 3600 10 twoBlank).2
